import Mathlib

/-!
# Verification of the BIMI statement-parsing and donor-classification engine

A shallow embedding, in Lean 4, of the core computational content of
`src/app.py` (class `BIMIFetcher` and the `load_data` ingestion loop):

* the statement parser `parse_financial_data_multiline` together with its
  helpers `is_address_line`, `extract_city_state_from_address` and
  `clean_donor_name` (regular expressions are rendered as explicit
  character-list scanners with the same matching semantics);
* the pattern analyzer `analyze_giving_pattern` (dollar amounts and the
  derived statistics are modelled as exact rationals `ℚ`; Python floats on
  the small decimal inputs occurring here agree with exact arithmetic on
  every comparison we prove);
* the classifier `classify_donors_smart` (the call to `datetime.now()` is
  modelled by an explicit `now : Period` parameter);
* the per-period ingestion step of `load_data` (the `donor_history` dict is
  modelled as an insertion-ordered association list, matching Python dict
  semantics).

Python's in-place `list.sort` inside the analyzer is modelled twice: the
value-level function `analyze_events` (result only), and the state-passing
variant `analyze_run` which also returns the post-call history.
-/

/-- A `"YYYY-MM"` period key, modelled structurally.  Comparison of the
zero-padded strings in the source is lexicographic on (year, month). -/
structure Period where
  y : Nat
  m : Nat
deriving Repr, DecidableEq

/-- Lexicographic order on periods: the order the `'%Y-%m'` strings carry. -/
def Period.le (p q : Period) : Prop :=
  p.y < q.y ∨ (p.y = q.y ∧ p.m ≤ q.m)

instance : DecidableRel Period.le := fun p q => by
  unfold Period.le; infer_instance

/-- `(current.year - last.year) * 12 + (current.month - last.month)`,
the calendar-month difference used by both analyzer and classifier. -/
def monthsBetween (p q : Period) : ℤ :=
  ((q.y : ℤ) - (p.y : ℤ)) * 12 + ((q.m : ℤ) - (p.m : ℤ))

/-- One parsed donor line of a statement (a `donors` list element built by
`parse_financial_data_multiline`). -/
structure DonorRecord where
  donor_number : String
  name : String
  original_name : String
  amount : ℚ
  city : String
  state : String
deriving Repr, DecidableEq

/-- One giving event stored in `donor_history` by `load_data`. -/
structure GivingEvent where
  date : Period
  amount : ℚ
  name : String
  city : String
  state : String
deriving Repr, DecidableEq

instance : Inhabited GivingEvent := ⟨⟨⟨0, 0⟩, 0, "", "", ""⟩⟩

/-- The `donor_history` dict: donor number to list of events, as an
insertion-ordered association list (Python dicts preserve insertion order
and have unique keys). -/
abbrev History := List (String × List GivingEvent)

/-- `donor_history[donor_id]`, i.e. the value at the first (unique) matching
key. -/
def lookupEvents (n : String) (h : History) : Option (List GivingEvent) :=
  (h.find? (fun e => e.1 == n)).map Prod.snd

/-- `donor_id in donor_history`. -/
def containsKey (n : String) (h : History) : Bool :=
  h.any (fun e => e.1 == n)

/-- Comparison of events by their `date` key, as used by
`gifts.sort(key=lambda x: x['date'])`. -/
def dateLe (a b : GivingEvent) : Prop := Period.le a.date b.date

instance : DecidableRel dateLe := fun a b => by
  unfold dateLe; infer_instance

/-- `gifts.sort(key=lambda x: x['date'])`: a stable sort by period.  (Stable
sorts by the same key are extensionally unique, so insertion sort models
CPython's Timsort exactly.) -/
def sortEvents (l : List GivingEvent) : List GivingEvent :=
  List.insertionSort dateLe l

/-- The consecutive-pair month differences of a (sorted) gift list:
`(gifts[i].date - gifts[i-1].date)` in whole months, `i = 1 .. n-1`. -/
def intervalsOf : List GivingEvent → List ℤ
  | [] => []
  | [_] => []
  | a :: b :: t => monthsBetween a.date b.date :: intervalsOf (b :: t)

/-- `Counter(l).most_common(1)[0]` : among the elements of `l`, the pair
(element, multiplicity) with the greatest multiplicity; ties are broken in
favour of the element whose first occurrence in `l` is earliest (Python
`Counter` iterates keys in insertion order and `most_common` is a stable
max).  Scanning `l` itself and replacing the champion only on a strictly
greater count realises exactly that rule. -/
def mostCommonFirst {α : Type} [DecidableEq α] (full : List α) : List α → Option (α × Nat)
  | [] => none
  | a :: t =>
    match mostCommonFirst full t with
    | none => some (a, full.count a)
    | some (b, c) => if c > full.count a then some (b, c) else some (a, full.count a)

/-- `Counter(l).most_common(1)[0]` with counts taken over `l`. -/
def modeFirst {α : Type} [DecidableEq α] (l : List α) : Option (α × Nat) :=
  mostCommonFirst l l

/-- The `frequency_map` dict lookup with its `f"Every {n} Months"` default. -/
def frequencyLabelOf (n : ℤ) : String :=
  if n = 1 then "Monthly"
  else if n = 2 then "Bi-Monthly"
  else if n = 3 then "Quarterly"
  else if n = 4 then "Every 4 Months"
  else if n = 6 then "Semi-Annual"
  else if n = 12 then "Annual"
  else "Every " ++ toString n ++ " Months"

/-- The analyzer's result quadruple
`(frequency, confidence, typical_amount, avg_interval)`. -/
structure GivingPattern where
  frequency : String
  confidence : String
  typical_amount : ℚ
  avg_interval : ℚ
deriving Repr, DecidableEq

/-- The body of `analyze_giving_pattern` once the donor's event list is in
hand (the list `donor_history[donor_id]`).  Mirrors the source line by
line; the `if amount_counter else sum/len` fallback of the source is the
`none` branch of `modeFirst`, unreachable for a list of length ≥ 2 (in
Python it would divide by zero; here `0 / 0 = 0`). -/
def analyze_events (gifts0 : List GivingEvent) : GivingPattern :=
  if gifts0.length < 2 then ⟨"One-Time", "Low", 0, 0⟩
  else
    let gifts := sortEvents gifts0
    let intervals := intervalsOf gifts
    let amounts := gifts.map (·.amount)
    let typical_amount : ℚ :=
      match modeFirst amounts with
      | some (a, _) => a
      | none => (amounts.sum) / (amounts.length : ℚ)
    if intervals = [] then ⟨"One-Time", "Low", typical_amount, 0⟩
    else
      let avg_interval : ℚ := ((intervals.sum : ℤ) : ℚ) / (intervals.length : ℚ)
      let mc := match modeFirst intervals with
        | some x => x
        | none => (0, 0)
      let consistency : ℚ := (mc.2 : ℚ) / (intervals.length : ℚ)
      let frequency := frequencyLabelOf mc.1
      if (8 : ℚ)/10 ≤ consistency ∧ 4 ≤ gifts.length then
        ⟨frequency, "High", typical_amount, avg_interval⟩
      else if (6 : ℚ)/10 ≤ consistency ∧ 3 ≤ gifts.length then
        ⟨frequency, "Medium", typical_amount, avg_interval⟩
      else
        ⟨"Variable", "Low", typical_amount, avg_interval⟩

/-- `analyze_giving_pattern(donor_id, donor_history)` (result value).  The
source's opening guard `donor_id not in donor_history or len(...) < 2` is
split between the lookup here and the length test in `analyze_events`. -/
def analyze_giving_pattern (donor_id : String) (h : History) : GivingPattern :=
  match lookupEvents donor_id h with
  | none => ⟨"One-Time", "Low", 0, 0⟩
  | some evs => analyze_events evs

/-- Replace the value at the first entry carrying key `n` (Python dict
value update). -/
def updateFirst (n : String) (f : List GivingEvent → List GivingEvent) : History → History
  | [] => []
  | e :: t => if e.1 == n then (e.1, f e.2) :: t else e :: updateFirst n f t

/-- `analyze_giving_pattern` as a state transformer: same result as
`analyze_giving_pattern`, but also returns the history as it stands after
the call, accounting for the in-place `gifts.sort(...)` the source performs
on `donor_history[donor_id]` (reached only when the donor exists and has at
least two events). -/
def analyze_run (donor_id : String) (h : History) : GivingPattern × History :=
  match lookupEvents donor_id h with
  | none => (⟨"One-Time", "Low", 0, 0⟩, h)
  | some evs =>
    if evs.length < 2 then (⟨"One-Time", "Low", 0, 0⟩, h)
    else (analyze_events evs, updateFirst donor_id sortEvents h)

/-- A `donor_data` dict built for a current-month donor: the spread of the
current `DonorRecord` plus the pattern and change fields. -/
structure ClassifiedDonor extends DonorRecord where
  frequency : String
  confidence : String
  typical_amount : ℚ
  change_amount : ℚ
  change_percent : ℚ
deriving Repr, DecidableEq

/-- The dict appended to `missed_donors`. -/
structure MissedDonor where
  donor_number : String
  name : String
  city : String
  state : String
  frequency : String
  confidence : String
  typical_amount : ℚ
  expected_amount : ℚ
deriving Repr, DecidableEq

/-- `current_month_dict = {d['donor_number']: d for d in current_month_donors}`
followed by lookup: dict comprehensions let the *last* record win on a
duplicate key. -/
def dictOf (l : List DonorRecord) (n : String) : Option DonorRecord :=
  (l.filter (fun d => d.donor_number == n)).getLast?

/-- `(change / typical_amount * 100) if typical_amount > 0 else 0`. -/
def changePercentVal (current_gift typical_amount : ℚ) : ℚ :=
  if 0 < typical_amount then (current_gift - typical_amount) / typical_amount * 100 else 0

/-- `max([g['date'] for g in history])`. -/
def maxDate (l : List GivingEvent) : Period :=
  l.foldl (fun acc g => if Period.le acc g.date ∧ acc ≠ g.date then g.date else acc) ⟨0, 0⟩

/-- Where one iteration of the classifier's history loop sends the donor. -/
inductive EntryClass where
  | toNew (d : ClassifiedDonor)
  | toChanged (d : ClassifiedDonor)
  | toNormal (d : ClassifiedDonor)
  | toMissed (m : MissedDonor)
  | skipped
deriving Repr, DecidableEq

/-- One iteration of `for donor_id, history in donor_history.items()` inside
`classify_donors_smart`.  `e.2` is the dict value, which is the very object
`analyze_giving_pattern` looks up (and sorts in place), so the analysis is
taken directly on `e.2`, and the `Missed` branch reads `history[0]` and
`max(...)` from the sorted list. -/
def classifyHistoryEntry (now : Period) (current : List DonorRecord)
    (e : String × List GivingEvent) : EntryClass :=
  let p := analyze_events e.2
  match dictOf current e.1 with
  | some cur =>
    let change := cur.amount - p.typical_amount
    let change_percent := changePercentVal cur.amount p.typical_amount
    let d : ClassifiedDonor :=
      { toDonorRecord := cur, frequency := p.frequency, confidence := p.confidence,
        typical_amount := p.typical_amount, change_amount := change,
        change_percent := change_percent }
    if e.2.length = 1 then .toNew d
    else if 50 < |change_percent| then .toChanged d
    else .toNormal d
  | none =>
    if p.frequency ≠ "One-Time" ∧ (p.confidence = "High" ∨ p.confidence = "Medium") then
      let sorted := sortEvents e.2
      let last_gift_date := maxDate sorted
      let months_since := monthsBetween last_gift_date now
      if p.avg_interval ≤ (months_since : ℚ) then
        .toMissed
          { donor_number := e.1, name := sorted.headI.name, city := sorted.headI.city,
            state := sorted.headI.state, frequency := p.frequency,
            confidence := p.confidence, typical_amount := p.typical_amount,
            expected_amount := p.typical_amount }
      else .skipped
    else .skipped

/-- The record built in the classifier's second loop for a current-month
donor absent from the history. -/
def trulyNewRecord (donor : DonorRecord) : ClassifiedDonor :=
  { toDonorRecord := donor, frequency := "One-Time", confidence := "Low",
    typical_amount := donor.amount, change_amount := 0, change_percent := 0 }

/-- `classify_donors_smart(current_month_donors, donor_history)` with the
`datetime.now()` year/month made explicit as `now`.  Returns
`(new_donors, changed_donors, missed_donors, normal_donors)`; each list
accumulates appends in iteration order, i.e. history-loop hits in history
order followed (for `new_donors`) by the second loop over
`current_month_donors`. -/
def classify_donors_smart (now : Period) (current_month_donors : List DonorRecord)
    (donor_history : History) :
    List ClassifiedDonor × List ClassifiedDonor × List MissedDonor × List ClassifiedDonor :=
  let hist_new := donor_history.filterMap (fun e =>
    match classifyHistoryEntry now current_month_donors e with
    | .toNew d => some d | _ => none)
  let changed := donor_history.filterMap (fun e =>
    match classifyHistoryEntry now current_month_donors e with
    | .toChanged d => some d | _ => none)
  let missed := donor_history.filterMap (fun e =>
    match classifyHistoryEntry now current_month_donors e with
    | .toMissed m => some m | _ => none)
  let normal := donor_history.filterMap (fun e =>
    match classifyHistoryEntry now current_month_donors e with
    | .toNormal d => some d | _ => none)
  let truly_new := (current_month_donors.filter
    (fun d => (lookupEvents d.donor_number donor_history).isNone)).map trulyNewRecord
  (hist_new ++ truly_new, changed, missed, normal)

/-- Donor numbers appearing in the `new_donors` output list. -/
def newNumbers (r : List ClassifiedDonor × List ClassifiedDonor × List MissedDonor × List ClassifiedDonor) : List String :=
  r.1.map (·.donor_number)

/-- Donor numbers appearing in the `changed_donors` output list. -/
def changedNumbers (r : List ClassifiedDonor × List ClassifiedDonor × List MissedDonor × List ClassifiedDonor) : List String :=
  r.2.1.map (·.donor_number)

/-- Donor numbers appearing in the `missed_donors` output list. -/
def missedNumbers (r : List ClassifiedDonor × List ClassifiedDonor × List MissedDonor × List ClassifiedDonor) : List String :=
  r.2.2.1.map (·.donor_number)

/-- Donor numbers appearing in the `normal_donors` output list. -/
def normalNumbers (r : List ClassifiedDonor × List ClassifiedDonor × List MissedDonor × List ClassifiedDonor) : List String :=
  r.2.2.2.map (·.donor_number)

/-- In how many of the four output lists a donor number appears. -/
def appearsCount (n : String)
    (r : List ClassifiedDonor × List ClassifiedDonor × List MissedDonor × List ClassifiedDonor) : Nat :=
  (if n ∈ newNumbers r then 1 else 0) + (if n ∈ changedNumbers r then 1 else 0) +
  (if n ∈ missedNumbers r then 1 else 0) + (if n ∈ normalNumbers r then 1 else 0)

/-- The `GivingEvent` dict appended by `load_data` for donor `d` in period
`p`. -/
def eventOf (p : Period) (d : DonorRecord) : GivingEvent :=
  ⟨p, d.amount, d.name, d.city, d.state⟩

/-- The per-donor body of the ingestion loop in `load_data`:
`if donor_id not in donor_history: donor_history[donor_id] = []` followed by
`if month_key not in existing_dates: ... append(...)`.  A fresh dict key is
inserted at the end (Python insertion order). -/
def ingestOne (h : History) (p : Period) (d : DonorRecord) : History :=
  let h1 := if containsKey d.donor_number h then h else h ++ [(d.donor_number, [])]
  updateFirst d.donor_number
    (fun evs => if p ∈ evs.map (·.date) then evs else evs ++ [eventOf p d]) h1

/-- `for donor in month_data['donors']: ...` — ingesting one period's donor
list into the history. -/
def ingestPeriod (h : History) (p : Period) (donors : List DonorRecord) : History :=
  donors.foldl (fun acc d => ingestOne acc p d) h

/-- The dates present for donor `n` (`existing_dates` for the first, unique,
entry keyed `n`; `[]` when the donor is unknown). -/
def datesAt (n : String) (h : History) : List Period :=
  ((lookupEvents n h).getD []).map (·.date)

/-- The events recorded for donor `n` in period `p`. -/
def eventsAtPeriod (n : String) (p : Period) (h : History) : List GivingEvent :=
  ((lookupEvents n h).getD []).filter (fun g => g.date == p)

/-! ## Statement parser -/

/-- Python `\s` / `str.strip` whitespace (ASCII as occurring in statements). -/
def isWsC (c : Char) : Bool :=
  c = ' ' || c = '\t' || c = '\n' || c = '\r' || c = '\x0b' || c = '\x0c'

/-- `\d` (ASCII). -/
def isDigitC (c : Char) : Bool := '0' ≤ c && c ≤ '9'

/-- `[A-Z]`. -/
def isUpperC (c : Char) : Bool := 'A' ≤ c && c ≤ 'Z'

/-- `[A-Za-z]`. -/
def isAlphaC (c : Char) : Bool := isUpperC c || ('a' ≤ c && c ≤ 'z')

/-- `[A-Za-z\s]`, the city-body character class. -/
def isBodyC (c : Char) : Bool := isAlphaC c || isWsC c

/-- ASCII lowercasing, for `re.IGNORECASE`. -/
def toLowerC (c : Char) : Char :=
  if isUpperC c then Char.ofNat (c.toNat + 32) else c

/-- `str.rstrip()`. -/
def rstripL (l : List Char) : List Char :=
  (l.reverse.dropWhile isWsC).reverse

/-- `str.strip()`. -/
def stripL (l : List Char) : List Char :=
  rstripL (l.dropWhile isWsC)

/-- Does `needle` occur as a prefix of `hay`? -/
def startsWithL : List Char → List Char → Bool
  | [], _ => true
  | _ :: _, [] => false
  | a :: as, b :: bs => a = b && startsWithL as bs

/-- Case-insensitive prefix test (`re.IGNORECASE` literals). -/
def startsWithCI (needle : String) (hay : List Char) : Bool :=
  startsWithL (needle.toList.map toLowerC) (hay.map toLowerC)

/-- Python's `needle in hay` substring test. -/
def containsL (needle : List Char) : List Char → Bool
  | [] => startsWithL needle []
  | c :: rest => startsWithL needle (c :: rest) || containsL needle rest

/-- `re.search` position scan: does `p` accept some suffix of the input? -/
def existsAt (p : List Char → Bool) : List Char → Bool
  | [] => p []
  | c :: rest => p (c :: rest) || existsAt p rest

/-- Digits to a natural number. -/
def natOfDigits (l : List Char) : Nat :=
  l.foldl (fun n c => n * 10 + (c.toNat - '0'.toNat)) 0

/-- The value of `float(intpart.replace(',', '') + '.' + fracpart)` as an
exact rational (decimal literals modelled exactly). -/
def ratOfParts (intpart fracpart : List Char) : ℚ :=
  (natOfDigits (intpart.filter isDigitC) : ℚ)
    + (natOfDigits fracpart : ℚ) / ((10 : ℚ) ^ fracpart.length)

/-- Match `\$([\d,]+\.\d+)` at the head of the input (the character classes
are disjoint from `.` and `$`, so maximal munch realises the regex). -/
def matchAmountAt (cs : List Char) : Option ℚ :=
  match cs with
  | '$' :: rest =>
    let ip := rest.takeWhile (fun c => isDigitC c || c = ',')
    if ip = [] then none
    else
      match rest.drop ip.length with
      | '.' :: r2 =>
        let fp := r2.takeWhile isDigitC
        if fp = [] then none else some (ratOfParts ip fp)
      | _ => none
  | _ => none

/-- `re.search(r'\$([\d,]+\.\d+)', line)`: first match anywhere in the
line, as used for the two totals. -/
def findDollarAmount : List Char → Option ℚ
  | [] => none
  | c :: rest =>
    match matchAmountAt (c :: rest) with
    | some q => some q
    | none => findDollarAmount rest

/-- Split a trailing `\s+\$([\d,]+\.\d+)` anchored at end-of-line off `cs`,
returning the part before the whitespace run is checked and the amount.
Returns the region before the `'$'` (which must end in whitespace) and the
amount value. -/
def splitEndAmount (cs : List Char) : Option (List Char × ℚ) :=
  let r := cs.reverse
  let fp := r.takeWhile isDigitC
  if fp = [] then none
  else
    match r.drop fp.length with
    | '.' :: r2 =>
      let ip := r2.takeWhile (fun c => isDigitC c || c = ',')
      if ip = [] then none
      else
        match r2.drop ip.length with
        | '$' :: r3 => some (r3.reverse, ratOfParts ip.reverse fp.reverse)
        | _ => none
    | _ => none

/-- `re.match(r'^\s*(\d+)\s+(.*?)\s+\$([\d,]+\.\d+)$', line)` on an already
right-stripped line, returning `(donor number, stripped raw name, amount)`.
The region between the donor number and the final `'$'` must start and end
in whitespace (the two `\s+`); since `group(2)` is `.strip()`ped by the
caller in the source, the lazy/greedy split inside that region is
immaterial and the name is the stripped region. -/
def donorLineMatch (line : List Char) : Option (String × String × ℚ) :=
  let ws0 := line.dropWhile isWsC
  let digits := ws0.takeWhile isDigitC
  if digits = [] then none
  else
    match splitEndAmount (ws0.drop digits.length) with
    | none => none
    | some (middle, amt) =>
      match middle.head?, middle.getLast? with
      | some h, some l =>
        if isWsC h ∧ isWsC l ∧ 2 ≤ middle.length then
          some (String.mk digits, String.mk (stripL middle), amt)
        else none
      | _, _ => none

/-- `[A-Z]{2}\s+\d{5}` at the head of the input. -/
def uuWsD5At (cs : List Char) : Bool :=
  match cs with
  | a :: b :: r =>
    isUpperC a && isUpperC b &&
      (let w := r.takeWhile isWsC
       ¬ w.isEmpty && 5 ≤ (r.drop w.length).length
         && ((r.drop w.length).take 5).all isDigitC)
  | _ => false

/-- `,?\s*[A-Z]{2}` at the head of the input (consuming the comma is the
only viable branch of `,?` when one is present). -/
def commaWsUU (cs : List Char) : Bool :=
  let cs1 := match cs with | ',' :: t => t | _ => cs
  match cs1.dropWhile isWsC with
  | a :: b :: _ => isUpperC a && isUpperC b
  | _ => false

/-- `[A-Za-z\s]+,?\s*[A-Z]{2}` : at least one body character, then the
tail, tried at every split (regex backtracking). -/
def p3Body : List Char → Bool
  | [] => false
  | c :: rest => isBodyC c && (commaWsUU rest || p3Body rest)

/-- `\s+[A-Z]{2}\s+\d{5}` at the head of the input. -/
def wsUUwsD5 (cs : List Char) : Bool :=
  let w := cs.takeWhile isWsC
  ¬ w.isEmpty && uuWsD5At (cs.drop w.length)

/-- `[A-Za-z\s]+\s+[A-Z]{2}\s+\d{5}` with the split tried everywhere. -/
def p4Body : List Char → Bool
  | [] => false
  | c :: rest => isBodyC c && (wsUUwsD5 rest || p4Body rest)

/-- Number of leading whitespace characters (for `\s{30,}`). -/
def leadingWs (l : List Char) : Nat := (l.takeWhile isWsC).length

/-- `is_address_line(line)`: right-strip, reject when fewer than 5 stripped
characters, then `re.search` each of the four padded-address patterns
anchored with `^\s{30,}`. -/
def is_address_line (raw : List Char) : Bool :=
  let line := rstripL raw
  if (stripL line).length < 5 then false
  else
    (30 ≤ leadingWs line && existsAt uuWsD5At (line.drop 30))
    || (30 ≤ leadingWs line && containsL "Canada".toList (line.drop 30))
    || (30 ≤ leadingWs line &&
        (match line.drop (leadingWs line) with
         | c :: rest => isUpperC c && p3Body rest
         | [] => false))
    || (30 ≤ leadingWs line &&
        (match line.drop (leadingWs line) with
         | c :: rest => isUpperC c && p4Body rest
         | [] => false))

/-- `\s+([A-Z]{2})\s+\d{5}` at the head, returning the state token. -/
def tailStateZip (cs : List Char) : Option (List Char) :=
  let w := cs.takeWhile isWsC
  if w.isEmpty then none
  else
    match cs.drop w.length with
    | a :: b :: r =>
      if isUpperC a ∧ isUpperC b then
        (let w2 := r.takeWhile isWsC
         if ¬ w2.isEmpty ∧ 5 ≤ (r.drop w2.length).length
             ∧ ((r.drop w2.length).take 5).all isDigitC
         then some [a, b] else none)
      else none
    | _ => none

/-- `,?\s+([A-Z]{2})\s+\d{5}` at the head. -/
def tailCommaStateZip (cs : List Char) : Option (List Char) :=
  tailStateZip (match cs with | ',' :: t => t | _ => cs)

/-- `\s+([A-Z]{2})\s*$` at the head. -/
def tailStateEnd (cs : List Char) : Option (List Char) :=
  let w := cs.takeWhile isWsC
  if w.isEmpty then none
  else
    match cs.drop w.length with
    | a :: b :: rest =>
      if isUpperC a ∧ isUpperC b ∧ rest.all isWsC then some [a, b] else none
    | _ => none

/-- `\s+Canada` at the head. -/
def tailCanada (cs : List Char) : Bool :=
  let w := cs.takeWhile isWsC
  ¬ w.isEmpty && startsWithL "Canada".toList (cs.drop w.length)

/-- The scan for a lazy city group `([A-Z][A-Za-z\s]+?)` followed by the
tail accepted by `t`: the shortest extension wins, exactly the order a lazy
quantifier explores.  `acc` holds the group matched so far (at least the
initial upper-case letter). -/
def lazyCityScan (t : List Char → Option (List Char)) (acc : List Char) :
    List Char → Option (String × String)
  | [] => none
  | c :: rest =>
    if isBodyC c then
      match t rest with
      | some st => some (String.mk (stripL (acc ++ [c])), String.mk st)
      | none => lazyCityScan t (acc ++ [c]) rest
    else none

/-- The scan for the greedy city group `([A-Z][A-Za-z\s]+)` of the Canada
pattern: the longest extension wins. -/
def greedyCityScan (acc : List Char) : List Char → Option String
  | [] => none
  | c :: rest =>
    if isBodyC c then
      match greedyCityScan (acc ++ [c]) rest with
      | some city => some city
      | none => if tailCanada rest then some (String.mk (stripL (acc ++ [c]))) else none
    else none

/-- Anchor `^[A-Z]` and run the lazy city scan with tail `t`. -/
def cityScanFrom (t : List Char → Option (List Char)) (a : List Char) :
    Option (String × String) :=
  match a with
  | c :: rest => if isUpperC c then lazyCityScan t [c] rest else none
  | [] => none

/-- Anchor `^[A-Z]` and run the greedy Canada city scan. -/
def canadaScanFrom (a : List Char) : Option String :=
  match a with
  | c :: rest => if isUpperC c then greedyCityScan [c] rest else none
  | [] => none

/-- The body of `extract_city_state_from_address` on the already-stripped
line: try the four anchored patterns in priority order, returning
`('', '')` when none matches. -/
def extractFromStripped (a : List Char) : String × String :=
  match cityScanFrom tailStateZip a with
  | some cs => cs
  | none =>
    match cityScanFrom tailCommaStateZip a with
    | some cs => cs
    | none =>
      match (if containsL "Canada".toList a then canadaScanFrom a else none) with
      | some city => (city, "Canada")
      | none =>
        match cityScanFrom tailStateEnd a with
        | some cs => cs
        | none => ("", "")

/-- `extract_city_state_from_address(address_line)`:
`address_line = address_line.strip()`, then the four patterns. -/
def extract_city_state_from_address (addr0 : List Char) : String × String :=
  extractFromStripped (stripL addr0)

/-- `\s+P\s*O\s*BOX\s+\d+.*` (IGNORECASE) matching at the head of the
input; since the trailing `.*` runs to end-of-line, a match deletes the
rest of the name. -/
def poBoxAt (cs : List Char) : Bool :=
  let w := cs.takeWhile isWsC
  ¬ w.isEmpty &&
    (match cs.drop w.length with
     | p :: r1 =>
       (p = 'P' || p = 'p') &&
         (match r1.dropWhile isWsC with
          | o :: r2 =>
            (o = 'O' || o = 'o') &&
              (let r3 := r2.dropWhile isWsC
               startsWithCI "BOX" r3 &&
                 (let r4 := r3.drop 3
                  let w4 := r4.takeWhile isWsC
                  ¬ w4.isEmpty &&
                    (match r4.drop w4.length with
                     | d :: _ => isDigitC d
                     | [] => false)))
          | [] => false)
     | [] => false)

/-- One of the street-type tokens of the second `re.sub` pattern,
case-insensitively, at the head of the input. -/
def streetTokenAt (cs : List Char) : Bool :=
  startsWithCI "AVENUE" cs || startsWithCI "AVE" cs || startsWithCI "STREET" cs
    || startsWithCI "ST" cs || startsWithCI "ROAD" cs || startsWithCI "RD" cs
    || startsWithCI "BLVD" cs || startsWithCI "DRIVE" cs || startsWithCI "DR" cs
    || startsWithCI "LANE" cs || startsWithCI "LN" cs

/-- `\s+\d+.*?(?:AVE|AVENUE|ST|STREET|RD|ROAD|BLVD|DR|DRIVE|LANE|LN).*`
(IGNORECASE) matching at the head of the input. -/
def streetAt (cs : List Char) : Bool :=
  let w := cs.takeWhile isWsC
  ¬ w.isEmpty &&
    (let r := cs.drop w.length
     let d := r.takeWhile isDigitC
     ¬ d.isEmpty && existsAt streetTokenAt (r.drop d.length))

/-- `re.sub(pattern-that-runs-to-end-of-line, '', name)`: keep the prefix
before the leftmost match position. -/
def truncAtMatch (p : List Char → Bool) : List Char → List Char
  | [] => []
  | c :: rest => if p (c :: rest) then [] else c :: truncAtMatch p rest

/-- `' '.join(s.split())` — split on whitespace runs. -/
def wordsAux (cur : List Char) : List Char → List (List Char)
  | [] => if cur = [] then [] else [cur.reverse]
  | c :: rest =>
    if isWsC c then
      (if cur = [] then wordsAux [] rest else cur.reverse :: wordsAux [] rest)
    else wordsAux (c :: cur) rest

/-- `' '.join(words)`. -/
def joinWords : List (List Char) → List Char
  | [] => []
  | [w] => w
  | w :: ws => w ++ ' ' :: joinWords ws

/-- `clean_donor_name(donor_name)`: strip a trailing PO-Box fragment, then
a trailing street-address fragment, then collapse whitespace. -/
def clean_donor_name (name : List Char) : List Char :=
  joinWords (wordsAux [] (truncAtMatch streetAt (truncAtMatch poBoxAt name)))

/-- The `financial_totals` dict (either key may be absent). -/
structure FinancialTotals where
  total_donations : Option ℚ
  net_available_cash : Option ℚ
deriving Repr, DecidableEq

/-- Build the donor dict appended by the parser. -/
def mkDonorRecord (num nameRaw : String) (amt : ℚ) (city state : String) : DonorRecord :=
  { donor_number := num, name := String.mk (clean_donor_name nameRaw.toList),
    original_name := nameRaw, amount := amt, city := city, state := state }

/-- `text_data.split('\n')`. -/
def splitLinesAux (cur : List Char) : List Char → List (List Char)
  | [] => [cur.reverse]
  | c :: rest =>
    if c = '\n' then cur.reverse :: splitLinesAux [] rest
    else splitLinesAux (c :: cur) rest

/-- The two `elif`-chained totals extractions applied to one (rstripped)
line: each label overwrites its `financial_totals` entry when the currency
pattern is found. -/
def updateTotals (tot : FinancialTotals) (line : List Char) : FinancialTotals :=
  if containsL "TOTAL DONATIONS FOR THIS MONTH".toList line then
    match findDollarAmount line with
    | some q => { tot with total_donations := some q }
    | none => tot
  else if containsL "YOUR NET AVAILABLE CASH".toList line then
    match findDollarAmount line with
    | some q => { tot with net_available_cash := some q }
    | none => tot
  else tot

/-- The `while i < len(lines)` loop of `parse_financial_data_multiline`:
section toggling on the two marker literals (with `continue`), the two
totals extractions (falling through to donor parsing), donor-line matching
inside the donor section, and the one-line look-ahead that consumes an
address line. -/
def parseLoop (inSec : Bool) (acc : List DonorRecord) (tot : FinancialTotals) :
    List (List Char) → List DonorRecord × FinancialTotals
  | [] => (acc, tot)
  | l :: rest =>
    if containsL "YOUR DONATIONS FOR THIS MONTH".toList (rstripL l) then
      parseLoop true acc tot rest
    else if containsL "YOUR DEDUCTIONS".toList (rstripL l) && inSec then
      parseLoop false acc tot rest
    else if inSec && ¬ (stripL (rstripL l)).isEmpty then
      match donorLineMatch (rstripL l) with
      | some (num, nameRaw, amt) =>
        match rest.head? with
        | some nxt =>
          if is_address_line nxt then
            parseLoop inSec
              (acc ++ [mkDonorRecord num nameRaw amt
                (extract_city_state_from_address (stripL nxt)).1
                (extract_city_state_from_address (stripL nxt)).2])
              (updateTotals tot (rstripL l)) rest.tail
          else
            parseLoop inSec (acc ++ [mkDonorRecord num nameRaw amt "" ""])
              (updateTotals tot (rstripL l)) rest
        | none =>
          parseLoop inSec (acc ++ [mkDonorRecord num nameRaw amt "" ""])
            (updateTotals tot (rstripL l)) rest
      | none => parseLoop inSec acc (updateTotals tot (rstripL l)) rest
    else parseLoop inSec acc (updateTotals tot (rstripL l)) rest
termination_by ls => ls.length
decreasing_by all_goals (simp [List.length_tail]; try omega)

/-- `parse_financial_data_multiline(text_data)`: `None` (the AuthChallenge
signal) exactly when the login-page signature occurs in the text; otherwise
the parsed donor list and totals.  The embedding is a total function: every
non-challenge input yields a result. -/
def parse_financial_data_multiline (text_data : String) :
    Option (List DonorRecord × FinancialTotals) :=
  if containsL "Missionary Login".toList text_data.toList then none
  else some (parseLoop false [] ⟨none, none⟩ (splitLinesAux [] text_data.toList))

/-! ## Lemmas: history lookups and ingestion -/

theorem lookupEvents_nil (n : String) : lookupEvents n [] = none := rfl

theorem lookupEvents_cons (n : String) (e : String × List GivingEvent) (t : History) :
    lookupEvents n (e :: t) = if e.1 == n then some e.2 else lookupEvents n t := by
  by_cases h : e.1 == n <;> simp [lookupEvents, List.find?, h]

theorem containsKey_cons (n : String) (e : String × List GivingEvent) (t : History) :
    containsKey n (e :: t) = ((e.1 == n) || containsKey n t) := by
  simp [containsKey, List.any_cons]

theorem containsKey_iff_isSome (n : String) (h : History) :
    containsKey n h = true ↔ (lookupEvents n h).isSome = true := by
  induction h with
  | nil => simp [containsKey, lookupEvents]
  | cons e t ih =>
    rcases Bool.eq_false_or_eq_true (e.1 == n) with he | he <;>
      simp [containsKey_cons, lookupEvents_cons, he, ih]

theorem lookupEvents_append_fresh (n k : String) (h : History)
    (hk : containsKey n h = false) :
    lookupEvents n (h ++ [(k, [])]) = if k == n then some [] else none := by
  induction h with
  | nil => simp [lookupEvents_cons, lookupEvents]
  | cons e t ih =>
    rw [containsKey_cons, Bool.or_eq_false_iff] at hk
    obtain ⟨he, ht⟩ := hk
    rw [List.cons_append, lookupEvents_cons, if_neg (by simp [he]), ih ht]

theorem lookupEvents_append_stale (n k : String) (h : History)
    (hk : containsKey n h = true) :
    lookupEvents n (h ++ [(k, [])]) = lookupEvents n h := by
  induction h with
  | nil => simp [containsKey] at hk
  | cons e t ih =>
    rcases Bool.eq_false_or_eq_true (e.1 == n) with he | he
    · rw [List.cons_append, lookupEvents_cons, lookupEvents_cons, if_pos he, if_pos he]
    · rw [containsKey_cons, he, Bool.false_or] at hk
      rw [List.cons_append, lookupEvents_cons, lookupEvents_cons,
        if_neg (by simp [he]), if_neg (by simp [he]), ih hk]

theorem lookupEvents_updateFirst_ne (n k : String) (f : List GivingEvent → List GivingEvent)
    (h : History) (hne : k ≠ n) :
    lookupEvents n (updateFirst k f h) = lookupEvents n h := by
  induction h with
  | nil => rfl
  | cons e t ih =>
    rcases Bool.eq_false_or_eq_true (e.1 == k) with he | he
    · have hn : (e.1 == n) = false := by
        rw [beq_iff_eq] at he
        rw [beq_eq_false_iff_ne, he]
        exact hne
      rw [updateFirst, if_pos he, lookupEvents_cons, lookupEvents_cons,
        if_neg (by simp [hn]), if_neg (by simp [hn])]
    · rw [updateFirst, if_neg (by simp [he]), lookupEvents_cons, lookupEvents_cons]
      by_cases hn : e.1 == n
      · rw [if_pos hn, if_pos hn]
      · rw [if_neg hn, if_neg hn, ih]

theorem lookupEvents_updateFirst_eq (n : String) (f : List GivingEvent → List GivingEvent)
    (h : History) (evs : List GivingEvent) (hl : lookupEvents n h = some evs) :
    lookupEvents n (updateFirst n f h) = some (f evs) := by
  induction h with
  | nil => simp [lookupEvents] at hl
  | cons e t ih =>
    rcases Bool.eq_false_or_eq_true (e.1 == n) with he | he
    · rw [lookupEvents_cons, if_pos he] at hl
      injection hl with hl
      subst hl
      rw [updateFirst, if_pos he, lookupEvents_cons, if_pos he]
    · rw [lookupEvents_cons, if_neg (by simp [he])] at hl
      rw [updateFirst, if_neg (by simp [he]), lookupEvents_cons,
        if_neg (by simp [he])]
      exact ih hl

theorem updateFirst_keys (k : String) (f : List GivingEvent → List GivingEvent) (h : History) :
    (updateFirst k f h).map Prod.fst = h.map Prod.fst := by
  induction h with
  | nil => rfl
  | cons e t ih =>
    rcases Bool.eq_false_or_eq_true (e.1 == k) with he | he <;>
      simp [updateFirst, he, ih]

theorem updateFirst_self (k : String) (f : List GivingEvent → List GivingEvent) (h : History)
    (hf : ∀ evs, lookupEvents k h = some evs → f evs = evs) :
    updateFirst k f h = h := by
  induction h with
  | nil => rfl
  | cons e t ih =>
    rcases Bool.eq_false_or_eq_true (e.1 == k) with he | he
    · have := hf e.2 (by rw [lookupEvents_cons, if_pos he])
      rw [updateFirst, if_pos he, this]
    · rw [updateFirst, if_neg (by simp [he]), ih]
      intro evs hl
      exact hf evs (by rw [lookupEvents_cons, if_neg (by simp [he])]; exact hl)

theorem lookup_none_of_not_containsKey (n : String) (h : History)
    (hc : containsKey n h = false) : lookupEvents n h = none := by
  cases hval : lookupEvents n h with
  | none => rfl
  | some evs =>
    have ht : containsKey n h = true :=
      (containsKey_iff_isSome n h).mpr (by rw [hval]; rfl)
    rw [hc] at ht
    exact absurd ht (by simp)

theorem ingestOne_lookup_self (h : History) (p : Period) (d : DonorRecord) :
    lookupEvents d.donor_number (ingestOne h p d) =
      some (if p ∈ ((lookupEvents d.donor_number h).getD []).map (·.date)
            then (lookupEvents d.donor_number h).getD []
            else (lookupEvents d.donor_number h).getD [] ++ [eventOf p d]) := by
  unfold ingestOne
  rcases Bool.eq_false_or_eq_true (containsKey d.donor_number h) with hc | hc
  · rw [if_pos hc]
    obtain ⟨evs, hevs⟩ := Option.isSome_iff_exists.mp ((containsKey_iff_isSome _ h).mp hc)
    rw [lookupEvents_updateFirst_eq _ _ _ _ hevs, hevs]
    rfl
  · rw [if_neg (by simp [hc])]
    have hnone := lookup_none_of_not_containsKey d.donor_number h hc
    have happ : lookupEvents d.donor_number (h ++ [(d.donor_number, [])]) = some [] := by
      rw [lookupEvents_append_fresh _ _ _ hc, if_pos (by simp)]
    rw [lookupEvents_updateFirst_eq _ _ _ _ happ, hnone]
    simp

theorem ingestOne_lookup_ne (h : History) (p : Period) (d : DonorRecord) (n : String)
    (hne : d.donor_number ≠ n) :
    lookupEvents n (ingestOne h p d) = lookupEvents n h := by
  unfold ingestOne
  rcases Bool.eq_false_or_eq_true (containsKey d.donor_number h) with hc | hc
  · rw [if_pos hc]
    exact lookupEvents_updateFirst_ne _ _ _ _ hne
  · rw [if_neg (by simp [hc]), lookupEvents_updateFirst_ne _ _ _ _ hne]
    rcases Bool.eq_false_or_eq_true (containsKey n h) with hcn | hcn
    · exact lookupEvents_append_stale _ _ _ hcn
    · rw [lookupEvents_append_fresh _ _ _ hcn, if_neg (by simp [hne]),
        lookup_none_of_not_containsKey n h hcn]

theorem ingestOne_id (h : History) (p : Period) (d : DonorRecord)
    (hc : containsKey d.donor_number h = true)
    (hp : p ∈ datesAt d.donor_number h) : ingestOne h p d = h := by
  unfold ingestOne
  rw [if_pos hc]
  apply updateFirst_self
  intro evs hl
  rw [if_pos]
  unfold datesAt at hp
  rwa [hl] at hp

theorem ingest_P_self (h : History) (p : Period) (d : DonorRecord) :
    containsKey d.donor_number (ingestOne h p d) = true ∧
      p ∈ datesAt d.donor_number (ingestOne h p d) := by
  have hs := ingestOne_lookup_self h p d
  constructor
  · exact (containsKey_iff_isSome _ _).mpr (by simp [hs])
  · unfold datesAt
    rw [hs]
    by_cases hin : p ∈ ((lookupEvents d.donor_number h).getD []).map (·.date)
    · rw [if_pos hin]
      exact hin
    · rw [if_neg hin]
      simp [eventOf]

theorem ingest_P_pres (H : History) (p : Period) (d' : DonorRecord) (n : String)
    (hc : containsKey n H = true) (hp : p ∈ datesAt n H) :
    containsKey n (ingestOne H p d') = true ∧ p ∈ datesAt n (ingestOne H p d') := by
  by_cases hd : d'.donor_number = n
  · subst hd
    have hs := ingestOne_lookup_self H p d'
    refine ⟨(containsKey_iff_isSome _ _).mpr (by simp [hs]), ?_⟩
    unfold datesAt at hp ⊢
    rw [hs]
    by_cases hin : p ∈ ((lookupEvents d'.donor_number H).getD []).map (·.date)
    · rw [if_pos hin]
      exact hin
    · rw [if_neg hin]
      simp only [Option.getD_some, List.map_append]
      exact List.mem_append_left _ hp
  · have hs := ingestOne_lookup_ne H p d' n hd
    refine ⟨?_, ?_⟩
    · rw [containsKey_iff_isSome, hs, ← containsKey_iff_isSome]
      exact hc
    · unfold datesAt
      rw [hs]
      exact hp

theorem ingest_P_fold (H : History) (p : Period) (ds : List DonorRecord) (n : String)
    (hc : containsKey n H = true) (hp : p ∈ datesAt n H) :
    containsKey n (ingestPeriod H p ds) = true ∧ p ∈ datesAt n (ingestPeriod H p ds) := by
  induction ds generalizing H with
  | nil => exact ⟨hc, hp⟩
  | cons d t ih =>
    rw [ingestPeriod, List.foldl_cons]
    obtain ⟨hc', hp'⟩ := ingest_P_pres H p d n hc hp
    exact ih _ hc' hp'

theorem ingest_P_all (h : History) (p : Period) (ds : List DonorRecord) :
    ∀ d ∈ ds, containsKey d.donor_number (ingestPeriod h p ds) = true ∧
      p ∈ datesAt d.donor_number (ingestPeriod h p ds) := by
  induction ds generalizing h with
  | nil => intro d hd; simp at hd
  | cons d0 t ih =>
    intro d hd
    rw [ingestPeriod, List.foldl_cons]
    rcases List.mem_cons.mp hd with hd | hd
    · subst hd
      obtain ⟨hc, hp⟩ := ingest_P_self h p d
      exact ingest_P_fold _ p t _ hc hp
    · exact ih _ d hd

theorem ingestPeriod_congr_id (H : History) (p : Period) (ds : List DonorRecord)
    (hall : ∀ d ∈ ds, ingestOne H p d = H) : ingestPeriod H p ds = H := by
  induction ds with
  | nil => rfl
  | cons d t ih =>
    rw [ingestPeriod, List.foldl_cons, hall d (List.mem_cons_self d t)]
    exact ih (fun d' hd' => hall d' (List.mem_cons_of_mem _ hd'))

/-- C8: re-ingesting the same (period, donor-list) pair is a no-op: every
donor already carries an event for that exact period after the first
ingestion, so the `month_key not in existing_dates` guard skips every
append the second time around. -/
theorem ingest_idempotent (h : History) (p : Period) (ds : List DonorRecord) :
    ingestPeriod (ingestPeriod h p ds) p ds = ingestPeriod h p ds := by
  apply ingestPeriod_congr_id
  intro d hd
  obtain ⟨hc, hp⟩ := ingest_P_all h p ds d hd
  exact ingestOne_id _ _ _ hc hp

theorem filter_date_eq_nil (l : List GivingEvent) (p : Period)
    (hp : p ∉ l.map (·.date)) : l.filter (fun g => g.date == p) = [] := by
  induction l with
  | nil => rfl
  | cons g t ih =>
    simp only [List.map_cons, List.mem_cons] at hp
    push_neg at hp
    rw [List.filter_cons, if_neg (by simp only [beq_iff_eq]; exact fun hgp => hp.1 hgp.symm)]
    exact ih hp.2

theorem ingestOne_events_self (h : History) (p : Period) (d : DonorRecord)
    (hp : p ∉ datesAt d.donor_number h) :
    eventsAtPeriod d.donor_number p (ingestOne h p d) = [eventOf p d] := by
  unfold eventsAtPeriod
  rw [ingestOne_lookup_self, Option.getD_some,
    if_neg (by unfold datesAt at hp; exact hp), List.filter_append,
    filter_date_eq_nil _ _ (by unfold datesAt at hp; exact hp)]
  simp [eventOf]

theorem ingestOne_events_pres (H : History) (p : Period) (d' : DonorRecord) (n : String)
    (ev : GivingEvent) (hev : eventsAtPeriod n p H = [ev]) :
    eventsAtPeriod n p (ingestOne H p d') = [ev] := by
  by_cases hd : d'.donor_number = n
  · subst hd
    have hevs : ∃ evs, lookupEvents d'.donor_number H = some evs := by
      cases hval : lookupEvents d'.donor_number H with
      | none => unfold eventsAtPeriod at hev; rw [hval] at hev; simp at hev
      | some evs => exact ⟨evs, rfl⟩
    obtain ⟨evs, hevs⟩ := hevs
    have hc : containsKey d'.donor_number H = true :=
      (containsKey_iff_isSome _ _).mpr (by rw [hevs]; rfl)
    have hmem : ev ∈ evs ∧ ev.date = p := by
      unfold eventsAtPeriod at hev
      rw [hevs, Option.getD_some] at hev
      have : ev ∈ evs.filter (fun g => g.date == p) := by rw [hev]; exact List.mem_singleton_self ev
      rw [List.mem_filter] at this
      exact ⟨this.1, by simpa using this.2⟩
    have hp : p ∈ datesAt d'.donor_number H := by
      unfold datesAt
      rw [hevs, Option.getD_some, List.mem_map]
      exact ⟨ev, hmem.1, hmem.2⟩
    rw [ingestOne_id _ _ _ hc hp]
    exact hev
  · unfold eventsAtPeriod at hev ⊢
    rw [ingestOne_lookup_ne _ _ _ _ hd]
    exact hev

theorem ingest_events_fold (H : History) (p : Period) (ds : List DonorRecord) (n : String)
    (ev : GivingEvent) (hev : eventsAtPeriod n p H = [ev]) :
    eventsAtPeriod n p (ingestPeriod H p ds) = [ev] := by
  induction ds generalizing H with
  | nil => exact hev
  | cons d t ih =>
    rw [ingestPeriod, List.foldl_cons]
    exact ih _ (ingestOne_events_pres H p d n ev hev)

/-- C10: when a period's donor list contains several records with the same
donor number, the event recorded for that donor and period is exactly one,
and it carries the data of the *first* such record (`find?`); every later
duplicate is dropped by the `month_key not in existing_dates` guard. -/
theorem ingest_duplicate_first_wins (h : History) (p : Period) (ds : List DonorRecord)
    (n : String) (r : DonorRecord)
    (hfind : ds.find? (fun d => d.donor_number == n) = some r)
    (hfresh : p ∉ datesAt n h) :
    eventsAtPeriod n p (ingestPeriod h p ds) = [eventOf p r] := by
  induction ds generalizing h with
  | nil => simp [List.find?] at hfind
  | cons d t ih =>
    rw [ingestPeriod, List.foldl_cons]
    rcases Bool.eq_false_or_eq_true (d.donor_number == n) with hd | hd
    · rw [List.find?] at hfind
      rw [hd] at hfind
      injection hfind with hfind
      subst hfind
      have hn : d.donor_number = n := beq_iff_eq.mp hd
      have := ingestOne_events_self h p d (by rw [hn]; exact hfresh)
      rw [hn] at this
      exact ingest_events_fold _ p t n _ this
    · rw [List.find?] at hfind
      rw [hd] at hfind
      have hne : d.donor_number ≠ n := by simpa using hd
      have hfresh' : p ∉ datesAt n (ingestOne h p d) := by
        unfold datesAt
        rw [ingestOne_lookup_ne _ _ _ _ hne]
        exact hfresh
      exact ih _ hfind hfresh'

/-- Concrete instantiation of `ingest_duplicate_first_wins`: two records for
donor `"1"` in one period; the stored event carries the first amount, 10. -/
theorem ingest_duplicate_first_wins_witness :
    eventsAtPeriod "1" ⟨2025, 1⟩
        (ingestPeriod [] ⟨2025, 1⟩
          [⟨"1", "A", "A", 10, "", ""⟩, ⟨"1", "B", "B", 20, "", ""⟩]) =
      [eventOf ⟨2025, 1⟩ ⟨"1", "A", "A", 10, "", ""⟩] :=
  ingest_duplicate_first_wins [] ⟨2025, 1⟩
    [⟨"1", "A", "A", 10, "", ""⟩, ⟨"1", "B", "B", 20, "", ""⟩] "1"
    ⟨"1", "A", "A", 10, "", ""⟩ (by decide) (by decide)

/-! ## C5: authentication challenge -/

/-- C5: the parser signals the authentication challenge (returns `none`)
exactly when the login-page signature `"Missionary Login"` occurs in the
raw text; on every other input it returns a donor list and totals.  The
embedding is a total function, so no input makes it raise: malformed lines
inside or outside the donor section are skipped by the pattern matches. -/
theorem parse_auth_challenge_iff (t : String) :
    parse_financial_data_multiline t = none ↔
      containsL "Missionary Login".toList t.toList = true := by
  unfold parse_financial_data_multiline
  rcases Bool.eq_false_or_eq_true (containsL "Missionary Login".toList t.toList) with hb | hb <;>
    simp [hb]

/-! ## C9: purity and the analyzer's in-place sort -/

/-- C9 (amended): the analyzer returns the same quadruple as its pure
reading, and its only effect on the passed history is to replace the
analyzed donor's event list by its stable sort by period — a permutation
that adds and removes nothing and leaves every other donor untouched; in
particular the history is returned *unchanged* whenever that donor's
events are already sorted. -/
theorem analyze_run_history_effect (d : String) (h : History) :
    (analyze_run d h).1 = analyze_giving_pattern d h ∧
    ((analyze_run d h).2.map Prod.fst = h.map Prod.fst) ∧
    (∀ k : String, ((lookupEvents k (analyze_run d h).2).getD []).Perm
        ((lookupEvents k h).getD [])) ∧
    (∀ evs, lookupEvents d h = some evs → sortEvents evs = evs →
        (analyze_run d h).2 = h) := by
  cases hval : lookupEvents d h with
  | none =>
    have hrun : analyze_run d h = (⟨"One-Time", "Low", 0, 0⟩, h) := by
      simp only [analyze_run, hval]
    rw [hrun]
    exact ⟨by unfold analyze_giving_pattern; rw [hval], rfl, fun k => List.Perm.refl _,
      fun evs hevs _ => Option.noConfusion hevs⟩
  | some evs =>
    by_cases hlen : evs.length < 2
    · have hrun : analyze_run d h = (⟨"One-Time", "Low", 0, 0⟩, h) := by
        simp only [analyze_run, hval]
        rw [if_pos hlen]
      rw [hrun]
      refine ⟨?_, rfl, fun k => List.Perm.refl _, fun _ _ _ => rfl⟩
      have hagp : analyze_giving_pattern d h = analyze_events evs := by
        simp only [analyze_giving_pattern, hval]
      rw [hagp]
      unfold analyze_events
      rw [if_pos hlen]
    · have hrun : analyze_run d h = (analyze_events evs, updateFirst d sortEvents h) := by
        simp only [analyze_run, hval]
        rw [if_neg hlen]
      rw [hrun]
      refine ⟨?_, ?_, ?_, ?_⟩
      · have hagp : analyze_giving_pattern d h = analyze_events evs := by
          simp only [analyze_giving_pattern, hval]
        rw [hagp]
      · exact updateFirst_keys d sortEvents h
      · intro k
        by_cases hk : k = d
        · subst hk
          rw [lookupEvents_updateFirst_eq _ _ _ _ hval, hval, Option.getD_some,
            Option.getD_some]
          exact List.perm_insertionSort dateLe evs
        · rw [lookupEvents_updateFirst_ne _ _ _ _ (fun hdk => hk hdk.symm)]
      · intro evs' hevs' hsort
        injection hevs' with hevs'
        subst hevs'
        exact updateFirst_self d sortEvents h
          (fun evs'' hevs'' => by
            rw [hval] at hevs''
            injection hevs'' with h2
            exact h2 ▸ hsort)

/-- concrete fixture events (distinct names/cities so mutations and
classification provenance are observable). -/
def evJan : GivingEvent := ⟨⟨2025, 1⟩, 100, "EARLY NAME", "OLDCITY", "OS"⟩

def evFeb : GivingEvent := ⟨⟨2025, 2⟩, 100, "MID NAME", "MIDCITY", "MS"⟩

def evMar : GivingEvent := ⟨⟨2025, 3⟩, 100, "LATE NAME", "NEWCITY", "NS"⟩

/-- Concrete instantiation of `analyze_run_history_effect`: on an
already-sorted two-event history the analyzer leaves the history intact. -/
theorem analyze_run_history_effect_witness :
    lookupEvents "1" [("1", [evJan, evFeb])] = some [evJan, evFeb] ∧
      sortEvents [evJan, evFeb] = [evJan, evFeb] ∧
      (analyze_run "1" [("1", [evJan, evFeb])]).2 = [("1", [evJan, evFeb])] :=
  ⟨by decide, by decide,
    (analyze_run_history_effect "1" [("1", [evJan, evFeb])]).2.2.2
      [evJan, evFeb] (by decide) (by decide)⟩

/-- C9 as stated is false: the analyzer mutates its history argument.  On a
history whose events are stored newest-first (as `load_data` builds them),
the call reorders the stored list in place. -/
theorem analyze_run_mutation_counterexample :
    (analyze_run "1" [("1", [evFeb, evJan])]).2 ≠ [("1", [evFeb, evJan])] := by
  decide

/-! ## C4: the typical amount -/

theorem mostCommonFirst_cons {α : Type} [DecidableEq α] (full : List α) (a : α) (t : List α) :
    mostCommonFirst full (a :: t) =
      match mostCommonFirst full t with
      | none => some (a, full.count a)
      | some (b, c) => if c > full.count a then some (b, c) else some (a, full.count a) := rfl

theorem mostCommonFirst_ne_none {α : Type} [DecidableEq α] (full : List α) (a : α)
    (t : List α) : mostCommonFirst full (a :: t) ≠ none := by
  rw [mostCommonFirst_cons]
  cases h : mostCommonFirst full t with
  | none => simp
  | some bc =>
    obtain ⟨b, c⟩ := bc
    by_cases hgt : c > full.count a <;> simp [hgt]

theorem mostCommonFirst_none_imp_nil {α : Type} [DecidableEq α] (full l : List α)
    (h : mostCommonFirst full l = none) : l = [] := by
  cases l with
  | nil => rfl
  | cons a t => exact absurd h (mostCommonFirst_ne_none full a t)

theorem mostCommonFirst_mem_count {α : Type} [DecidableEq α] (full l : List α) (b : α)
    (c : Nat) (h : mostCommonFirst full l = some (b, c)) : b ∈ l ∧ c = full.count b := by
  induction l generalizing b c with
  | nil => simp [mostCommonFirst] at h
  | cons a t ih =>
    rw [mostCommonFirst_cons] at h
    cases ht : mostCommonFirst full t with
    | none =>
      rw [ht] at h
      injection h with h
      injection h with h1 h2
      subst h1
      exact ⟨List.mem_cons_self a t, h2.symm⟩
    | some bc =>
      obtain ⟨bt, ct⟩ := bc
      rw [ht] at h
      replace h : (if ct > full.count a then some (bt, ct)
          else some (a, full.count a)) = some (b, c) := h
      by_cases hgt : ct > full.count a
      · rw [if_pos hgt] at h
        injection h with h
        injection h with h1 h2
        subst h1
        obtain ⟨hmem, hcnt⟩ := ih bt ct ht
        exact ⟨List.mem_cons_of_mem a hmem, h2 ▸ hcnt⟩
      · rw [if_neg hgt] at h
        injection h with h
        injection h with h1 h2
        subst h1
        exact ⟨List.mem_cons_self a t, h2.symm⟩

theorem mostCommonFirst_max {α : Type} [DecidableEq α] (full l : List α) (b : α) (c : Nat)
    (h : mostCommonFirst full l = some (b, c)) :
    ∀ x ∈ l, full.count x ≤ full.count b := by
  induction l generalizing b c with
  | nil => intro x hx; simp at hx
  | cons a t ih =>
    intro x hx
    rw [mostCommonFirst_cons] at h
    cases ht : mostCommonFirst full t with
    | none =>
      have hnil := mostCommonFirst_none_imp_nil full t ht
      subst hnil
      rw [ht] at h
      injection h with h
      injection h with h1 h2
      subst h1
      rcases List.mem_cons.mp hx with rfl | hx
      · exact le_refl _
      · simp at hx
    | some bc =>
      obtain ⟨bt, ct⟩ := bc
      rw [ht] at h
      replace h : (if ct > full.count a then some (bt, ct)
          else some (a, full.count a)) = some (b, c) := h
      have hct : ct = full.count bt := (mostCommonFirst_mem_count full t bt ct ht).2
      by_cases hgt : ct > full.count a
      · rw [if_pos hgt] at h
        injection h with h
        injection h with h1 h2
        subst h1
        rcases List.mem_cons.mp hx with rfl | hx
        · exact le_of_lt (hct ▸ hgt)
        · exact ih bt ct ht x hx
      · rw [if_neg hgt] at h
        injection h with h
        injection h with h1 h2
        subst h1
        rcases List.mem_cons.mp hx with rfl | hx
        · exact le_refl _
        · have hx1 : full.count x ≤ full.count bt := ih bt ct ht x hx
          have hx2 : full.count bt ≤ full.count a := by
            rw [← hct]
            exact le_of_not_lt hgt
          exact le_trans hx1 hx2

theorem mostCommonFirst_tiebreak {α : Type} [DecidableEq α] (full l : List α) (b : α)
    (c : Nat) (h : mostCommonFirst full l = some (b, c)) :
    ∀ x ∈ l, full.count x = full.count b → l.indexOf b ≤ l.indexOf x := by
  induction l generalizing b c with
  | nil => intro x hx; simp at hx
  | cons a t ih =>
    intro x hx hcx
    rw [mostCommonFirst_cons] at h
    cases ht : mostCommonFirst full t with
    | none =>
      have hnil := mostCommonFirst_none_imp_nil full t ht
      subst hnil
      rw [ht] at h
      injection h with h
      injection h with h1 h2
      subst h1
      rcases List.mem_cons.mp hx with rfl | hx
      · exact le_refl _
      · simp at hx
    | some bc =>
      obtain ⟨bt, ct⟩ := bc
      rw [ht] at h
      replace h : (if ct > full.count a then some (bt, ct)
          else some (a, full.count a)) = some (b, c) := h
      have hct : ct = full.count bt := (mostCommonFirst_mem_count full t bt ct ht).2
      by_cases hgt : ct > full.count a
      · rw [if_pos hgt] at h
        injection h with h
        injection h with h1 h2
        subst h1
        have hba : bt ≠ a := by
          intro hba
          rw [hba] at hct
          exact absurd (hct ▸ hgt) (lt_irrefl _)
        rcases List.mem_cons.mp hx with rfl | hx
        · exact absurd (hcx ▸ (hct ▸ hgt)) (lt_irrefl _)
        · have hxa : x ≠ a := by
            intro hxa
            rw [hxa] at hcx
            exact absurd (hcx ▸ (hct ▸ hgt)) (lt_irrefl _)
          rw [List.indexOf_cons_ne _ (by simpa using (Ne.symm hba)), List.indexOf_cons_ne _ (by simpa using (Ne.symm hxa))]
          exact Nat.succ_le_succ (ih bt ct ht x hx hcx)
      · rw [if_neg hgt] at h
        injection h with h
        injection h with h1 h2
        subst h1
        rw [List.indexOf_cons_self]
        exact Nat.zero_le _

/-- The amount list the analyzer takes the mode over: amounts in
sorted-by-period order. -/
def sortedAmounts (events : List GivingEvent) : List ℚ :=
  (sortEvents events).map (·.amount)

theorem analyze_events_typical (gifts0 : List GivingEvent) (h : ¬ gifts0.length < 2) :
    (analyze_events gifts0).typical_amount =
      match modeFirst (sortedAmounts gifts0) with
      | some (a, _) => a
      | none => (sortedAmounts gifts0).sum / ((sortedAmounts gifts0).length : ℚ) := by
  unfold analyze_events sortedAmounts
  rw [if_neg h]
  simp only []
  split <;> (try split) <;> (try split) <;> rfl

/-- C4 (amended): for 2 or more events, `typicalAmount` is the mode of the
amounts in sorted-by-period order with the first-encountered amount winning
all ties — *including* the all-distinct case, where every amount has count
one and the first amount is returned.  The arithmetic-mean fallback of the
source is dead code (its guard, an empty `Counter`, never holds for a
nonempty amount list). -/
theorem typical_amount_is_first_mode (events : List GivingEvent)
    (h2 : 2 ≤ events.length) :
    (analyze_events events).typical_amount ∈ sortedAmounts events ∧
    (∀ b ∈ sortedAmounts events,
      (sortedAmounts events).count b ≤
        (sortedAmounts events).count (analyze_events events).typical_amount) ∧
    (∀ b ∈ sortedAmounts events,
      (sortedAmounts events).count b =
          (sortedAmounts events).count (analyze_events events).typical_amount →
        (sortedAmounts events).indexOf (analyze_events events).typical_amount ≤
          (sortedAmounts events).indexOf b) := by
  have hlen : (sortedAmounts events).length = events.length := by
    unfold sortedAmounts sortEvents
    rw [List.length_map]
    exact (List.perm_insertionSort dateLe events).length_eq
  have hne : sortedAmounts events ≠ [] := by
    intro hnil
    rw [hnil] at hlen
    simp at hlen
    omega
  have hmode : ∃ b c, modeFirst (sortedAmounts events) = some (b, c) := by
    unfold modeFirst
    cases hm : mostCommonFirst (sortedAmounts events) (sortedAmounts events) with
    | none => exact absurd (mostCommonFirst_none_imp_nil _ _ hm) hne
    | some bc => exact ⟨bc.1, bc.2, rfl⟩
  obtain ⟨b, c, hmode⟩ := hmode
  have htyp : (analyze_events events).typical_amount = b := by
    rw [analyze_events_typical events (by omega), hmode]
  rw [htyp]
  have hm' : mostCommonFirst (sortedAmounts events) (sortedAmounts events) = some (b, c) :=
    hmode
  exact ⟨(mostCommonFirst_mem_count _ _ _ _ hm').1,
    fun x hx => mostCommonFirst_max _ _ _ _ hm' x hx,
    fun x hx hcx => mostCommonFirst_tiebreak _ _ _ _ hm' x hx hcx⟩

/-- A second event whose amount differs from `evJan`'s. -/
def evFeb200 : GivingEvent := ⟨⟨2025, 2⟩, 200, "MID NAME", "MIDCITY", "MS"⟩

/-- C4 as stated is false in its all-distinct clause: with the two distinct
amounts 100 and 200 the analyzer returns the first amount 100, not the
arithmetic mean 150. -/
theorem typical_amount_mean_counterexample :
    sortedAmounts [evJan, evFeb200] = [100, 200] ∧
    ([100, 200] : List ℚ).Nodup ∧
    (analyze_events [evJan, evFeb200]).typical_amount = 100 ∧
    (analyze_events [evJan, evFeb200]).typical_amount ≠ ((100 : ℚ) + 200) / 2 := by
  have hs : sortedAmounts [evJan, evFeb200] = [100, 200] := by
    norm_num [sortedAmounts, sortEvents, List.insertionSort, List.orderedInsert,
      dateLe, Period.le, evJan, evFeb200]
  have ht : (analyze_events [evJan, evFeb200]).typical_amount = 100 := by
    rw [analyze_events_typical _ (by norm_num), hs]
    norm_num [modeFirst, mostCommonFirst]
  refine ⟨hs, by norm_num, ht, ?_⟩
  rw [ht]
  norm_num

/-- Concrete instantiation of `typical_amount_is_first_mode` at the
two-event history `[evJan, evFeb200]`. -/
theorem typical_amount_is_first_mode_witness :
    2 ≤ ([evJan, evFeb200] : List GivingEvent).length ∧
      (analyze_events [evJan, evFeb200]).typical_amount ∈ sortedAmounts [evJan, evFeb200] :=
  ⟨by norm_num, (typical_amount_is_first_mode [evJan, evFeb200] (by norm_num)).1⟩

/-! ## C6: state-token validation -/

theorem tailStateZip_shape (cs st : List Char) (h : tailStateZip cs = some st) :
    ∃ a b, st = [a, b] ∧ isUpperC a = true ∧ isUpperC b = true := by
  simp only [tailStateZip] at h
  split at h
  · exact absurd h (by simp)
  · split at h
    · rename_i a b r heq
      split at h
      case isTrue hup =>
        split at h
        · injection h with h
          exact ⟨a, b, h.symm, hup.1, hup.2⟩
        · exact absurd h (by simp)
      case isFalse => exact absurd h (by simp)
    · exact absurd h (by simp)

theorem tailCommaStateZip_shape (cs st : List Char) (h : tailCommaStateZip cs = some st) :
    ∃ a b, st = [a, b] ∧ isUpperC a = true ∧ isUpperC b = true := by
  unfold tailCommaStateZip at h
  exact tailStateZip_shape _ _ h

theorem tailStateEnd_shape (cs st : List Char) (h : tailStateEnd cs = some st) :
    ∃ a b, st = [a, b] ∧ isUpperC a = true ∧ isUpperC b = true := by
  simp only [tailStateEnd] at h
  split at h
  · exact absurd h (by simp)
  · split at h
    · rename_i a b r heq
      split at h
      case isTrue hup =>
        injection h with h
        exact ⟨a, b, h.symm, hup.1, hup.2.1⟩
      case isFalse => exact absurd h (by simp)
    · exact absurd h (by simp)

theorem lazyCityScan_state (t : List Char → Option (List Char)) (acc l : List Char)
    (city st : String) (h : lazyCityScan t acc l = some (city, st)) :
    ∃ cs stl, t cs = some stl ∧ st = String.mk stl := by
  induction l generalizing acc with
  | nil => simp [lazyCityScan] at h
  | cons c rest ih =>
    rcases Bool.eq_false_or_eq_true (isBodyC c) with hb | hb
    · cases hT : t rest with
      | some stl =>
        simp [lazyCityScan, hb, hT] at h
        exact ⟨rest, stl, hT, h.2.symm⟩
      | none =>
        simp [lazyCityScan, hb, hT] at h
        exact ih (acc ++ [c]) h
    · simp [lazyCityScan, hb] at h

theorem cityScanFrom_state (t : List Char → Option (List Char)) (a : List Char)
    (city st : String) (h : cityScanFrom t a = some (city, st))
    (ht : ∀ cs stl, t cs = some stl →
      ∃ x y, stl = [x, y] ∧ isUpperC x = true ∧ isUpperC y = true) :
    ∃ x y, st = String.mk [x, y] ∧ isUpperC x = true ∧ isUpperC y = true := by
  cases a with
  | nil => simp [cityScanFrom] at h
  | cons c rest =>
    rcases Bool.eq_false_or_eq_true (isUpperC c) with hc | hc
    · simp only [cityScanFrom, hc, if_true] at h
      obtain ⟨cs, stl, hT, hst⟩ := lazyCityScan_state t [c] rest city st (by simpa using h)
      obtain ⟨x, y, hxy, hx, hy⟩ := ht cs stl hT
      exact ⟨x, y, by rw [hst, hxy], hx, hy⟩
    · simp [cityScanFrom, hc] at h

/-- C6 (amended): the extractor validates the state token against no list
at all — the token is anything matching `[A-Z]{2}` (any two consecutive
upper-case letters), or the literal `Canada`; only when no pattern matches
are city and state left empty. -/
theorem extract_state_shape (addr : List Char) :
    (extract_city_state_from_address addr).2 = "" ∨
    (extract_city_state_from_address addr).2 = "Canada" ∨
    (∃ x y, (extract_city_state_from_address addr).2 = String.mk [x, y] ∧
      isUpperC x = true ∧ isUpperC y = true) := by
  unfold extract_city_state_from_address extractFromStripped
  cases h1 : cityScanFrom tailStateZip (stripL addr) with
  | some cs =>
    right; right
    exact cityScanFrom_state _ _ cs.1 cs.2 (by rw [h1]) tailStateZip_shape
  | none =>
    cases h2 : cityScanFrom tailCommaStateZip (stripL addr) with
    | some cs =>
      right; right
      exact cityScanFrom_state _ _ cs.1 cs.2 (by rw [h2]) tailCommaStateZip_shape
    | none =>
      cases h3 : (if containsL "Canada".toList (stripL addr)
          then canadaScanFrom (stripL addr) else none) with
      | some city => right; left; rfl
      | none =>
        cases h4 : cityScanFrom tailStateEnd (stripL addr) with
        | some cs =>
          right; right
          exact cityScanFrom_state _ _ cs.1 cs.2 (by rw [h4]) tailStateEnd_shape
        | none => left; rfl

/-- Modelled from the spec: the fixed set of two-letter US state codes
(plus the District of Columbia) and, as fallback, Canadian province codes
that the spec says state tokens are validated against.  No such set exists
anywhere in the source. -/
def spec_valid_state_codes : List String :=
  ["AL", "AK", "AZ", "AR", "CA", "CO", "CT", "DE", "FL", "GA", "HI", "ID",
   "IL", "IN", "IA", "KS", "KY", "LA", "ME", "MD", "MA", "MI", "MN", "MS",
   "MO", "MT", "NE", "NV", "NH", "NJ", "NM", "NY", "NC", "ND", "OH", "OK",
   "OR", "PA", "RI", "SC", "SD", "TN", "TX", "UT", "VT", "VA", "WA", "WV",
   "WI", "WY", "DC",
   "AB", "BC", "MB", "NB", "NL", "NS", "NT", "NU", "ON", "PE", "QC", "SK", "YT"]

/-- C6 as stated is false: `XX` is not a US or Canadian code, yet the
extractor happily returns it as the state instead of yielding empty
city/state. -/
theorem extract_state_unvalidated_counterexample :
    extract_city_state_from_address "SPRINGFIELD XX 62701".toList =
      ("SPRINGFIELD", "XX") ∧
    "XX" ∉ spec_valid_state_codes ∧ ("XX" : String) ≠ "" := by
  decide

/-! ## C7: parsed amounts -/

theorem ratOfParts_nonneg (ip fp : List Char) : 0 ≤ ratOfParts ip fp := by
  unfold ratOfParts
  positivity

theorem splitEndAmount_nonneg (cs m : List Char) (q : ℚ)
    (h : splitEndAmount cs = some (m, q)) : 0 ≤ q := by
  simp only [splitEndAmount] at h
  split at h
  · exact absurd h (by simp)
  · split at h
    · split at h
      · exact absurd h (by simp)
      · split at h
        · injection h with h
          injection h with h1 h2
          rw [← h2]
          exact ratOfParts_nonneg _ _
        · exact absurd h (by simp)
    · exact absurd h (by simp)

theorem donorLineMatch_nonneg (line : List Char) (num nameRaw : String) (q : ℚ)
    (h : donorLineMatch line = some (num, nameRaw, q)) : 0 ≤ q := by
  simp only [donorLineMatch] at h
  split at h
  · exact absurd h (by simp)
  · split at h
    · exact absurd h (by simp)
    · rename_i middle amt heq
      split at h
      · split at h
        · injection h with h
          injection h with h1 h2
          injection h2 with h2 h3
          rw [← h3]
          exact splitEndAmount_nonneg _ _ _ heq
        · exact absurd h (by simp)
      · exact absurd h (by simp)

theorem parseLoop_amounts : ∀ (inSec : Bool) (acc : List DonorRecord)
    (tot : FinancialTotals) (ls : List (List Char)),
    (∀ d ∈ acc, 0 ≤ d.amount) →
    ∀ d ∈ (parseLoop inSec acc tot ls).1, 0 ≤ d.amount := by
  intro inSec acc tot ls
  induction inSec, acc, tot, ls using parseLoop.induct with
  | case1 inSec acc tot =>
    intro hacc
    simpa [parseLoop] using hacc
  | case2 inSec acc tot l rest h1 ih =>
    intro hacc
    rw [parseLoop.eq_2]
    simp only [h1, if_true]
    exact ih hacc
  | case3 inSec acc tot l rest h1 h2 ih =>
    intro hacc
    rw [parseLoop.eq_2]
    simp only [h1, h2]
    simp only [if_false, if_true]
    exact ih hacc
  | case4 inSec acc tot l rest h1 h2 h3 num nameRaw amt h4 st h5 h6 ih =>
    intro hacc
    rw [parseLoop.eq_2]
    simp only [h1, h2, h3, h4, h5, h6, if_false, if_true]
    apply ih
    intro d hd
    rcases List.mem_append.mp hd with hd | hd
    · exact hacc d hd
    · rw [List.mem_singleton.mp hd]
      exact donorLineMatch_nonneg _ _ _ _ h4
  | case5 inSec acc tot l rest h1 h2 h3 num nameRaw amt h4 st h5 h6 ih =>
    intro hacc
    rw [parseLoop.eq_2]
    simp only [h1, h2, h3, h4, h5, h6, if_false, if_true]
    apply ih
    intro d hd
    rcases List.mem_append.mp hd with hd | hd
    · exact hacc d hd
    · rw [List.mem_singleton.mp hd]
      exact donorLineMatch_nonneg _ _ _ _ h4
  | case6 inSec acc tot l rest h1 h2 h3 num nameRaw amt h4 h5 ih =>
    intro hacc
    rw [parseLoop.eq_2]
    simp only [h1, h2, h3, h4, h5, if_false, if_true]
    apply ih
    intro d hd
    rcases List.mem_append.mp hd with hd | hd
    · exact hacc d hd
    · rw [List.mem_singleton.mp hd]
      exact donorLineMatch_nonneg _ _ _ _ h4
  | case7 inSec acc tot l rest h1 h2 h3 h4 ih =>
    intro hacc
    rw [parseLoop.eq_2]
    simp only [h1, h2, h3, h4, if_false, if_true]
    exact ih hacc
  | case8 inSec acc tot l rest h1 h2 h3 ih =>
    intro hacc
    rw [parseLoop.eq_2]
    simp only [h1, h2, h3, if_false, if_true]
    exact ih hacc

/-- C7 (amended): every `DonorRecord` produced by the parser has a
*non-negative* amount — the currency pattern `\$([\d,]+\.\d+)` admits
`$0.00`, so strict positivity fails. -/
theorem parse_amounts_nonneg (t : String) (ds : List DonorRecord)
    (tot : FinancialTotals)
    (h : parse_financial_data_multiline t = some (ds, tot)) :
    ∀ d ∈ ds, 0 ≤ d.amount := by
  unfold parse_financial_data_multiline at h
  split at h
  · exact absurd h (by simp)
  · injection h with h
    have hds : ds = (parseLoop false [] ⟨none, none⟩ (splitLinesAux [] t.toList)).1 := by
      rw [h]
    rw [hds]
    exact parseLoop_amounts false [] ⟨none, none⟩ _ (by intro d hd; simp at hd)

/-- C7 as stated is false: the statement line `  1  JOHN  $0.00` parses to
a donor record whose amount is exactly 0, not `> 0`. -/
theorem parse_zero_amount_counterexample :
    parse_financial_data_multiline "YOUR DONATIONS FOR THIS MONTH\n  1  JOHN  $0.00" =
      some ([⟨"1", "JOHN", "JOHN", 0, "", ""⟩], ⟨none, none⟩) := by
  have h0 : natOfDigits ['0', '0'] = 0 := by decide
  have h1 : natOfDigits (List.filter isDigitC ['0']) = 0 := by decide
  norm_num +decide [parse_financial_data_multiline, parseLoop, splitLinesAux, rstripL,
    stripL, containsL, startsWithL, isWsC, donorLineMatch, splitEndAmount, ratOfParts,
    h0, h1, mkDonorRecord, clean_donor_name, truncAtMatch, poBoxAt, streetAt, wordsAux,
    joinWords, startsWithCI, toLowerC, isUpperC, isAlphaC, isBodyC, isDigitC,
    String.toList]

/-- Concrete instantiation of `parse_amounts_nonneg` at the `$0.00`
statement: its one parsed record has a non-negative amount. -/
theorem parse_amounts_nonneg_witness :
    ∃ ds tot, parse_financial_data_multiline
        "YOUR DONATIONS FOR THIS MONTH\n  1  JOHN  $0.00" = some (ds, tot) ∧
      ∀ d ∈ ds, 0 ≤ d.amount := by
  cases hp : parse_financial_data_multiline
      "YOUR DONATIONS FOR THIS MONTH\n  1  JOHN  $0.00" with
  | none =>
    exact absurd hp (by
      unfold parse_financial_data_multiline
      rw [if_neg (by decide)]
      simp)
  | some r =>
    have hp2 : parse_financial_data_multiline
        "YOUR DONATIONS FOR THIS MONTH\n  1  JOHN  $0.00" = some (r.1, r.2) := hp
    exact ⟨r.1, r.2, rfl, parse_amounts_nonneg _ r.1 r.2 hp2⟩

/-! ## Classifier lemmas (C1, C2, C3) -/

theorem dictOf_number (l : List DonorRecord) (n : String) (d : DonorRecord)
    (h : dictOf l n = some d) : d.donor_number = n := by
  unfold dictOf at h
  have hmem : d ∈ l.filter (fun d => d.donor_number == n) :=
    List.mem_of_mem_getLast? h
  exact beq_iff_eq.mp (List.mem_filter.mp hmem).2

theorem dictOf_isSome_of_mem (l : List DonorRecord) (n : String)
    (h : n ∈ l.map (·.donor_number)) : ∃ d, dictOf l n = some d := by
  obtain ⟨r, hr, hrn⟩ := List.mem_map.mp h
  have hmem : r ∈ l.filter (fun d => d.donor_number == n) :=
    List.mem_filter.mpr ⟨hr, by simp [hrn]⟩
  unfold dictOf
  cases hl : l.filter (fun d => d.donor_number == n) with
  | nil => rw [hl] at hmem; simp at hmem
  | cons a t =>
    cases hg : (a :: t).getLast? with
    | none => simp at hg
    | some d => exact ⟨d, rfl⟩

theorem lookup_none_iff (n : String) (h : History) :
    lookupEvents n h = none ↔ ∀ e ∈ h, e.1 ≠ n := by
  unfold lookupEvents
  rw [Option.map_eq_none', List.find?_eq_none]
  simp

theorem lookup_some_of_mem (hist : History) (hnd : (hist.map Prod.fst).Nodup)
    (e : String × List GivingEvent) (he : e ∈ hist) :
    lookupEvents e.1 hist = some e.2 := by
  induction hist with
  | nil => simp at he
  | cons a t ih =>
    rcases List.mem_cons.mp he with rfl | he
    · rw [lookupEvents_cons, if_pos (by simp)]
    · have hne : a.1 ≠ e.1 := by
        intro hq
        have : e.1 ∈ t.map Prod.fst := List.mem_map.mpr ⟨e, he, rfl⟩
        rw [List.map_cons] at hnd
        exact (List.nodup_cons.mp hnd).1 (hq ▸ this)
      rw [lookupEvents_cons, if_neg (by simp [hne])]
      exact ih (by rw [List.map_cons] at hnd; exact (List.nodup_cons.mp hnd).2) he

theorem entry_unique (hist : History) (hnd : (hist.map Prod.fst).Nodup)
    (e1 e2 : String × List GivingEvent) (h1 : e1 ∈ hist) (h2 : e2 ∈ hist)
    (hk : e1.1 = e2.1) : e1 = e2 := by
  have l1 := lookup_some_of_mem hist hnd e1 h1
  have l2 := lookup_some_of_mem hist hnd e2 h2
  rw [hk] at l1
  rw [l2] at l1
  injection l1 with l1
  exact Prod.ext hk l1.symm

theorem extractNew_eq_some (c : EntryClass) (x : ClassifiedDonor) :
    (match c with | .toNew d => some d | _ => none) = some x ↔ c = .toNew x := by
  cases c <;> simp

theorem extractChanged_eq_some (c : EntryClass) (x : ClassifiedDonor) :
    (match c with | .toChanged d => some d | _ => none) = some x ↔ c = .toChanged x := by
  cases c <;> simp

theorem extractNormal_eq_some (c : EntryClass) (x : ClassifiedDonor) :
    (match c with | .toNormal d => some d | _ => none) = some x ↔ c = .toNormal x := by
  cases c <;> simp

theorem extractMissed_eq_some (c : EntryClass) (x : MissedDonor) :
    (match c with | .toMissed m => some m | _ => none) = some x ↔ c = .toMissed x := by
  cases c <;> simp

/-- In the current-donor branch the classifier is a three-way split on the
history length and the absolute change percentage. -/
theorem classifyHistoryEntry_current (now : Period) (cur : List DonorRecord)
    (e : String × List GivingEvent) (c : DonorRecord) (hd : dictOf cur e.1 = some c) :
    classifyHistoryEntry now cur e =
      (let p := analyze_events e.2
       let d : ClassifiedDonor :=
         { toDonorRecord := c, frequency := p.frequency, confidence := p.confidence,
           typical_amount := p.typical_amount,
           change_amount := c.amount - p.typical_amount,
           change_percent := changePercentVal c.amount p.typical_amount }
       if e.2.length = 1 then .toNew d
       else if 50 < |changePercentVal c.amount p.typical_amount| then .toChanged d
       else .toNormal d) := by
  simp only [classifyHistoryEntry, hd]

/-- The donor number carried by a classified entry, regardless of which of
the four categories it went to. -/
def classNumber : EntryClass → Option String
  | .toNew d => some d.donor_number
  | .toChanged d => some d.donor_number
  | .toNormal d => some d.donor_number
  | .toMissed m => some m.donor_number
  | .skipped => none

/-- Whatever category an entry lands in, the record it contributes carries
that entry's donor number. -/
theorem chE_number (now : Period) (cur : List DonorRecord)
    (e : String × List GivingEvent) (s : String)
    (h : classNumber (classifyHistoryEntry now cur e) = some s) : s = e.1 := by
  cases hd : dictOf cur e.1 with
  | some c =>
    rw [classifyHistoryEntry_current now cur e c hd] at h
    simp only [] at h
    split at h <;> (try split at h) <;>
      (simp only [classNumber] at h; injection h with h;
       rw [← h]; exact dictOf_number cur e.1 c hd)
  | none =>
    simp only [classifyHistoryEntry, hd] at h
    split at h
    · split at h
      · simp only [classNumber] at h
        injection h with h
        exact h.symm
      · simp [classNumber] at h
    · simp [classNumber] at h

theorem chE_new_number (now : Period) (cur : List DonorRecord)
    (e : String × List GivingEvent) (d : ClassifiedDonor)
    (h : classifyHistoryEntry now cur e = .toNew d) : d.donor_number = e.1 :=
  chE_number now cur e d.donor_number (by rw [h]; rfl)

theorem chE_changed_number (now : Period) (cur : List DonorRecord)
    (e : String × List GivingEvent) (d : ClassifiedDonor)
    (h : classifyHistoryEntry now cur e = .toChanged d) : d.donor_number = e.1 :=
  chE_number now cur e d.donor_number (by rw [h]; rfl)

theorem chE_normal_number (now : Period) (cur : List DonorRecord)
    (e : String × List GivingEvent) (d : ClassifiedDonor)
    (h : classifyHistoryEntry now cur e = .toNormal d) : d.donor_number = e.1 :=
  chE_number now cur e d.donor_number (by rw [h]; rfl)

theorem chE_missed_number (now : Period) (cur : List DonorRecord)
    (e : String × List GivingEvent) (m : MissedDonor)
    (h : classifyHistoryEntry now cur e = .toMissed m) : m.donor_number = e.1 :=
  chE_number now cur e m.donor_number (by rw [h]; rfl)

/-- With a current-period record present, the entry always lands in exactly
one of New / Changed / Normal. -/
theorem chE_current_shape (now : Period) (cur : List DonorRecord)
    (e : String × List GivingEvent) (c : DonorRecord) (hd : dictOf cur e.1 = some c) :
    (∃ d, classifyHistoryEntry now cur e = .toNew d) ∨
    (∃ d, classifyHistoryEntry now cur e = .toChanged d) ∨
    (∃ d, classifyHistoryEntry now cur e = .toNormal d) := by
  rw [classifyHistoryEntry_current now cur e c hd]
  simp only []
  split
  · exact Or.inl ⟨_, rfl⟩
  · split
    · exact Or.inr (Or.inl ⟨_, rfl⟩)
    · exact Or.inr (Or.inr ⟨_, rfl⟩)

/-- Inversion of the Missed branch: the emitted record is built from the
head of the donor's *sorted* event list, and the analyzed frequency of the
events is not `"One-Time"` (so there are at least two events). -/
theorem chE_missed_inv (now : Period) (cur : List DonorRecord)
    (e : String × List GivingEvent) (m : MissedDonor)
    (h : classifyHistoryEntry now cur e = .toMissed m) :
    m = { donor_number := e.1, name := (sortEvents e.2).headI.name,
          city := (sortEvents e.2).headI.city, state := (sortEvents e.2).headI.state,
          frequency := (analyze_events e.2).frequency,
          confidence := (analyze_events e.2).confidence,
          typical_amount := (analyze_events e.2).typical_amount,
          expected_amount := (analyze_events e.2).typical_amount } ∧
    (analyze_events e.2).frequency ≠ "One-Time" := by
  cases hd : dictOf cur e.1 with
  | some c =>
    rw [classifyHistoryEntry_current now cur e c hd] at h
    simp only [] at h
    split at h <;> (try split at h) <;> exact absurd h (by simp)
  | none =>
    simp only [classifyHistoryEntry, hd] at h
    split at h
    case isTrue hg =>
      split at h
      · injection h with h
        exact ⟨h.symm, hg.1⟩
      · exact absurd h (by simp)
    case isFalse => exact absurd h (by simp)

theorem mem_newNumbers_iff (now : Period) (cur : List DonorRecord) (hist : History)
    (n : String) :
    n ∈ newNumbers (classify_donors_smart now cur hist) ↔
      ((∃ e ∈ hist, ∃ d, classifyHistoryEntry now cur e = .toNew d ∧ d.donor_number = n) ∨
       (∃ r ∈ cur, r.donor_number = n ∧ lookupEvents n hist = none)) := by
  unfold newNumbers classify_donors_smart
  simp only [List.map_append, List.mem_append, List.mem_map, List.mem_filterMap]
  constructor
  · rintro (⟨d, ⟨e, he, hde⟩, hdn⟩ | ⟨d, ⟨r, hr, hrd⟩, hdn⟩)
    · exact Or.inl ⟨e, he, d, (extractNew_eq_some _ _).mp hde, hdn⟩
    · rw [List.mem_filter] at hr
      refine Or.inr ⟨r, hr.1, ?_, ?_⟩
      · rw [← hdn, ← hrd]
        rfl
      · have : (lookupEvents r.donor_number hist).isNone = true := by simpa using hr.2
        rw [Option.isNone_iff_eq_none] at this
        have hrn : r.donor_number = n := by rw [← hdn, ← hrd]; rfl
        rw [← hrn]
        exact this
  · rintro (⟨e, he, d, hde, hdn⟩ | ⟨r, hr, hrn, hln⟩)
    · exact Or.inl ⟨d, ⟨e, he, (extractNew_eq_some _ _).mpr hde⟩, hdn⟩
    · refine Or.inr ⟨trulyNewRecord r, ⟨r, ?_, rfl⟩, hrn⟩
      rw [List.mem_filter]
      exact ⟨hr, by simp [hrn ▸ hln]⟩

theorem mem_changedNumbers_iff (now : Period) (cur : List DonorRecord) (hist : History)
    (n : String) :
    n ∈ changedNumbers (classify_donors_smart now cur hist) ↔
      ∃ e ∈ hist, ∃ d, classifyHistoryEntry now cur e = .toChanged d ∧ d.donor_number = n := by
  unfold changedNumbers classify_donors_smart
  simp only [List.mem_map, List.mem_filterMap]
  constructor
  · rintro ⟨d, ⟨e, he, hde⟩, hdn⟩
    exact ⟨e, he, d, (extractChanged_eq_some _ _).mp hde, hdn⟩
  · rintro ⟨e, he, d, hde, hdn⟩
    exact ⟨d, ⟨e, he, (extractChanged_eq_some _ _).mpr hde⟩, hdn⟩

theorem mem_missedNumbers_iff (now : Period) (cur : List DonorRecord) (hist : History)
    (n : String) :
    n ∈ missedNumbers (classify_donors_smart now cur hist) ↔
      ∃ e ∈ hist, ∃ m, classifyHistoryEntry now cur e = .toMissed m ∧ m.donor_number = n := by
  unfold missedNumbers classify_donors_smart
  simp only [List.mem_map, List.mem_filterMap]
  constructor
  · rintro ⟨m, ⟨e, he, hme⟩, hmn⟩
    exact ⟨e, he, m, (extractMissed_eq_some _ _).mp hme, hmn⟩
  · rintro ⟨e, he, m, hme, hmn⟩
    exact ⟨m, ⟨e, he, (extractMissed_eq_some _ _).mpr hme⟩, hmn⟩

theorem mem_normalNumbers_iff (now : Period) (cur : List DonorRecord) (hist : History)
    (n : String) :
    n ∈ normalNumbers (classify_donors_smart now cur hist) ↔
      ∃ e ∈ hist, ∃ d, classifyHistoryEntry now cur e = .toNormal d ∧ d.donor_number = n := by
  unfold normalNumbers classify_donors_smart
  simp only [List.mem_map, List.mem_filterMap]
  constructor
  · rintro ⟨d, ⟨e, he, hde⟩, hdn⟩
    exact ⟨e, he, d, (extractNormal_eq_some _ _).mp hde, hdn⟩
  · rintro ⟨e, he, d, hde, hdn⟩
    exact ⟨d, ⟨e, he, (extractNormal_eq_some _ _).mpr hde⟩, hdn⟩

/-- C1 (amended): in one classification run each donor number appears in
*at most one* of the four output lists, and each donor number of the
current period appears in *exactly one*; a history-only donor may appear in
none (when it fails the Missed eligibility tests). -/
theorem classify_at_most_one_list (now : Period) (cur : List DonorRecord) (hist : History)
    (hnd : (hist.map Prod.fst).Nodup) (n : String) :
    appearsCount n (classify_donors_smart now cur hist) ≤ 1 ∧
      (n ∈ cur.map (·.donor_number) →
        appearsCount n (classify_donors_smart now cur hist) = 1) := by
  have uniq : ∀ (X Y : String × List GivingEvent), X ∈ hist → X.1 = n → Y ∈ hist →
      Y.1 = n → X = Y := fun X Y hX kX hY kY =>
    entry_unique hist hnd X Y hX hY (kX.trans kY.symm)
  have hNC : n ∈ newNumbers (classify_donors_smart now cur hist) →
      n ∉ changedNumbers (classify_donors_smart now cur hist) := by
    intro hn hc
    obtain ⟨e2, he2, d2, hcls2, hdn2⟩ := (mem_changedNumbers_iff now cur hist n).mp hc
    have he2n : e2.1 = n := by rw [← hdn2, chE_changed_number now cur e2 d2 hcls2]
    rcases (mem_newNumbers_iff now cur hist n).mp hn with
      ⟨e1, he1, d1, hcls1, hdn1⟩ | ⟨r1, hr1, hrn1, hlk⟩
    · have he1n : e1.1 = n := by rw [← hdn1, chE_new_number now cur e1 d1 hcls1]
      rw [uniq e1 e2 he1 he1n he2 he2n, hcls2] at hcls1
      simp at hcls1
    · exact absurd he2n ((lookup_none_iff n hist).mp hlk e2 he2)
  have hNM : n ∈ newNumbers (classify_donors_smart now cur hist) →
      n ∉ missedNumbers (classify_donors_smart now cur hist) := by
    intro hn hm
    obtain ⟨e2, he2, m2, hcls2, hdn2⟩ := (mem_missedNumbers_iff now cur hist n).mp hm
    have he2n : e2.1 = n := by rw [← hdn2, chE_missed_number now cur e2 m2 hcls2]
    rcases (mem_newNumbers_iff now cur hist n).mp hn with
      ⟨e1, he1, d1, hcls1, hdn1⟩ | ⟨r1, hr1, hrn1, hlk⟩
    · have he1n : e1.1 = n := by rw [← hdn1, chE_new_number now cur e1 d1 hcls1]
      rw [uniq e1 e2 he1 he1n he2 he2n, hcls2] at hcls1
      simp at hcls1
    · exact absurd he2n ((lookup_none_iff n hist).mp hlk e2 he2)
  have hNO : n ∈ newNumbers (classify_donors_smart now cur hist) →
      n ∉ normalNumbers (classify_donors_smart now cur hist) := by
    intro hn ho
    obtain ⟨e2, he2, d2, hcls2, hdn2⟩ := (mem_normalNumbers_iff now cur hist n).mp ho
    have he2n : e2.1 = n := by rw [← hdn2, chE_normal_number now cur e2 d2 hcls2]
    rcases (mem_newNumbers_iff now cur hist n).mp hn with
      ⟨e1, he1, d1, hcls1, hdn1⟩ | ⟨r1, hr1, hrn1, hlk⟩
    · have he1n : e1.1 = n := by rw [← hdn1, chE_new_number now cur e1 d1 hcls1]
      rw [uniq e1 e2 he1 he1n he2 he2n, hcls2] at hcls1
      simp at hcls1
    · exact absurd he2n ((lookup_none_iff n hist).mp hlk e2 he2)
  have hCM : n ∈ changedNumbers (classify_donors_smart now cur hist) →
      n ∉ missedNumbers (classify_donors_smart now cur hist) := by
    intro hc hm
    obtain ⟨e1, he1, d1, hcls1, hdn1⟩ := (mem_changedNumbers_iff now cur hist n).mp hc
    obtain ⟨e2, he2, m2, hcls2, hdn2⟩ := (mem_missedNumbers_iff now cur hist n).mp hm
    have he1n : e1.1 = n := by rw [← hdn1, chE_changed_number now cur e1 d1 hcls1]
    have he2n : e2.1 = n := by rw [← hdn2, chE_missed_number now cur e2 m2 hcls2]
    rw [uniq e1 e2 he1 he1n he2 he2n, hcls2] at hcls1
    simp at hcls1
  have hCO : n ∈ changedNumbers (classify_donors_smart now cur hist) →
      n ∉ normalNumbers (classify_donors_smart now cur hist) := by
    intro hc ho
    obtain ⟨e1, he1, d1, hcls1, hdn1⟩ := (mem_changedNumbers_iff now cur hist n).mp hc
    obtain ⟨e2, he2, d2, hcls2, hdn2⟩ := (mem_normalNumbers_iff now cur hist n).mp ho
    have he1n : e1.1 = n := by rw [← hdn1, chE_changed_number now cur e1 d1 hcls1]
    have he2n : e2.1 = n := by rw [← hdn2, chE_normal_number now cur e2 d2 hcls2]
    rw [uniq e1 e2 he1 he1n he2 he2n, hcls2] at hcls1
    simp at hcls1
  have hMO : n ∈ missedNumbers (classify_donors_smart now cur hist) →
      n ∉ normalNumbers (classify_donors_smart now cur hist) := by
    intro hm ho
    obtain ⟨e1, he1, m1, hcls1, hdn1⟩ := (mem_missedNumbers_iff now cur hist n).mp hm
    obtain ⟨e2, he2, d2, hcls2, hdn2⟩ := (mem_normalNumbers_iff now cur hist n).mp ho
    have he1n : e1.1 = n := by rw [← hdn1, chE_missed_number now cur e1 m1 hcls1]
    have he2n : e2.1 = n := by rw [← hdn2, chE_normal_number now cur e2 d2 hcls2]
    rw [uniq e1 e2 he1 he1n he2 he2n, hcls2] at hcls1
    simp at hcls1
  constructor
  · unfold appearsCount
    by_cases hN : n ∈ newNumbers (classify_donors_smart now cur hist)
    · simp [hN, hNC hN, hNM hN, hNO hN]
    · by_cases hC : n ∈ changedNumbers (classify_donors_smart now cur hist)
      · simp [hN, hC, hCM hC, hCO hC]
      · by_cases hM : n ∈ missedNumbers (classify_donors_smart now cur hist)
        · simp [hN, hC, hM, hMO hM]
        · by_cases hO : n ∈ normalNumbers (classify_donors_smart now cur hist) <;>
            simp [hN, hC, hM, hO]
  · intro hcur
    by_cases hlk : lookupEvents n hist = none
    · obtain ⟨rc, hrc, hrcn⟩ := List.mem_map.mp hcur
      have hN : n ∈ newNumbers (classify_donors_smart now cur hist) :=
        (mem_newNumbers_iff now cur hist n).mpr (Or.inr ⟨rc, hrc, hrcn, hlk⟩)
      unfold appearsCount
      simp [hN, hNC hN, hNM hN, hNO hN]
    · obtain ⟨evs, hevs⟩ := Option.ne_none_iff_exists'.mp hlk
      obtain ⟨e0, hfind⟩ : ∃ e0, hist.find? (fun e => e.1 == n) = some e0 := by
        unfold lookupEvents at hevs
        cases hf : hist.find? (fun e => e.1 == n) with
        | none => rw [hf] at hevs; simp at hevs
        | some e0 => exact ⟨e0, rfl⟩
      have he0 : e0 ∈ hist := List.mem_of_find?_eq_some hfind
      have he0n : e0.1 = n := by
        have hp := @List.find?_some _ (fun e => e.1 == n) e0 hist hfind
        simpa using hp
      obtain ⟨c, hd⟩ : ∃ c, dictOf cur e0.1 = some c := by
        rw [he0n]
        exact dictOf_isSome_of_mem cur n hcur
      rcases chE_current_shape now cur e0 c hd with ⟨d, hcls⟩ | ⟨d, hcls⟩ | ⟨d, hcls⟩
      · have hN : n ∈ newNumbers (classify_donors_smart now cur hist) :=
          (mem_newNumbers_iff now cur hist n).mpr
            (Or.inl ⟨e0, he0, d, hcls, by rw [chE_new_number now cur e0 d hcls, he0n]⟩)
        unfold appearsCount
        simp [hN, hNC hN, hNM hN, hNO hN]
      · have hC : n ∈ changedNumbers (classify_donors_smart now cur hist) :=
          (mem_changedNumbers_iff now cur hist n).mpr
            ⟨e0, he0, d, hcls, by rw [chE_changed_number now cur e0 d hcls, he0n]⟩
        have hN : n ∉ newNumbers (classify_donors_smart now cur hist) :=
          fun hN => hNC hN hC
        unfold appearsCount
        simp [hN, hC, hCM hC, hCO hC]
      · have hO : n ∈ normalNumbers (classify_donors_smart now cur hist) :=
          (mem_normalNumbers_iff now cur hist n).mpr
            ⟨e0, he0, d, hcls, by rw [chE_normal_number now cur e0 d hcls, he0n]⟩
        have hN : n ∉ newNumbers (classify_donors_smart now cur hist) :=
          fun hN => hNO hN hO
        have hC : n ∉ changedNumbers (classify_donors_smart now cur hist) :=
          fun hC => hCO hC hO
        have hM : n ∉ missedNumbers (classify_donors_smart now cur hist) :=
          fun hM => hMO hM hO
        unfold appearsCount
        simp [hN, hC, hM, hO]

/-- A current-month record for donor `"7"` giving the typical amount. -/
def curRec7 : DonorRecord := ⟨"7", "N", "N", 100, "", ""⟩

/-- C1 as stated is false: a donor present in the history (here with a
single event, hence `One-Time` frequency) who did not give this period is
not eligible for Missed and lands in none of the four lists. -/
theorem classify_zero_lists_counterexample :
    containsKey "1" [("1", [evJan])] = true ∧
      appearsCount "1" (classify_donors_smart ⟨2025, 8⟩ [] [("1", [evJan])]) = 0 := by
  decide

/-- Concrete instantiation of `classify_at_most_one_list`: donor `"7"` is
in the current period and in the history, and appears in exactly one output
list. -/
theorem classify_at_most_one_list_witness :
    ([("7", [evJan, evFeb])].map Prod.fst).Nodup ∧
      "7" ∈ [curRec7].map (·.donor_number) ∧
      appearsCount "7"
        (classify_donors_smart ⟨2025, 8⟩ [curRec7] [("7", [evJan, evFeb])]) = 1 := by
  have h := classify_at_most_one_list ⟨2025, 8⟩ [curRec7] [("7", [evJan, evFeb])]
    (by decide) "7"
  exact ⟨by decide, by decide, h.2 (by decide)⟩

/-! ## C2: the branch rule for donors in both history and current period -/

/-- The `donor_data` record built for a donor present in both history and
current period. -/
def currentDonorData (c : DonorRecord) (p : GivingPattern) : ClassifiedDonor :=
  { toDonorRecord := c, frequency := p.frequency, confidence := p.confidence,
    typical_amount := p.typical_amount, change_amount := c.amount - p.typical_amount,
    change_percent := changePercentVal c.amount p.typical_amount }

/-- C2 (amended): for a donor present in both the history and the current
period, the classifier sends the donor to New **iff the history has exactly
one event** (not: iff the analyzed frequency is One-Time or the confidence
is Low); otherwise to Changed iff the absolute change percent exceeds 50,
and otherwise to Normal. -/
theorem classify_current_branch_rule (now : Period) (cur : List DonorRecord)
    (hist : History) (hnd : (hist.map Prod.fst).Nodup)
    (e : String × List GivingEvent) (he : e ∈ hist)
    (c : DonorRecord) (hd : dictOf cur e.1 = some c) :
    (e.1 ∈ newNumbers (classify_donors_smart now cur hist) ↔ e.2.length = 1) ∧
    (e.1 ∈ changedNumbers (classify_donors_smart now cur hist) ↔
      (¬ e.2.length = 1 ∧
        50 < |changePercentVal c.amount (analyze_events e.2).typical_amount|)) ∧
    (e.1 ∈ normalNumbers (classify_donors_smart now cur hist) ↔
      (¬ e.2.length = 1 ∧
        ¬ 50 < |changePercentVal c.amount (analyze_events e.2).typical_amount|)) := by
  have hcur := classifyHistoryEntry_current now cur e c hd
  simp only [] at hcur
  have hlk : lookupEvents e.1 hist = some e.2 := lookup_some_of_mem hist hnd e he
  have uniq : ∀ (X : String × List GivingEvent), X ∈ hist → X.1 = e.1 → X = e :=
    fun X hX kX => entry_unique hist hnd X e hX he kX
  refine ⟨⟨?_, ?_⟩, ⟨?_, ?_⟩, ⟨?_, ?_⟩⟩
  · intro hm
    rcases (mem_newNumbers_iff now cur hist e.1).mp hm with
      ⟨e1, he1, d1, hcls1, hdn1⟩ | ⟨r1, hr1, hrn1, hlkn⟩
    · have he1n : e1.1 = e.1 := by rw [← hdn1, chE_new_number now cur e1 d1 hcls1]
      rw [uniq e1 he1 he1n, hcur] at hcls1
      by_cases hlen : e.2.length = 1
      · exact hlen
      · rw [if_neg hlen] at hcls1
        by_cases hcp : 50 < |changePercentVal c.amount (analyze_events e.2).typical_amount|
        · rw [if_pos hcp] at hcls1
          simp at hcls1
        · rw [if_neg hcp] at hcls1
          simp at hcls1
    · rw [hlkn] at hlk
      cases hlk
  · intro hlen
    refine (mem_newNumbers_iff now cur hist e.1).mpr
      (Or.inl ⟨e, he, currentDonorData c (analyze_events e.2), ?_, ?_⟩)
    · rw [hcur, if_pos hlen]
      rfl
    · exact dictOf_number cur e.1 c hd
  · intro hm
    obtain ⟨e1, he1, d1, hcls1, hdn1⟩ := (mem_changedNumbers_iff now cur hist e.1).mp hm
    have he1n : e1.1 = e.1 := by rw [← hdn1, chE_changed_number now cur e1 d1 hcls1]
    rw [uniq e1 he1 he1n, hcur] at hcls1
    by_cases hlen : e.2.length = 1
    · rw [if_pos hlen] at hcls1
      simp at hcls1
    · rw [if_neg hlen] at hcls1
      by_cases hcp : 50 < |changePercentVal c.amount (analyze_events e.2).typical_amount|
      · exact ⟨hlen, hcp⟩
      · rw [if_neg hcp] at hcls1
        simp at hcls1
  · rintro ⟨hlen, hcp⟩
    refine (mem_changedNumbers_iff now cur hist e.1).mpr
      ⟨e, he, currentDonorData c (analyze_events e.2), ?_, ?_⟩
    · rw [hcur, if_neg hlen, if_pos hcp]
      rfl
    · exact dictOf_number cur e.1 c hd
  · intro hm
    obtain ⟨e1, he1, d1, hcls1, hdn1⟩ := (mem_normalNumbers_iff now cur hist e.1).mp hm
    have he1n : e1.1 = e.1 := by rw [← hdn1, chE_normal_number now cur e1 d1 hcls1]
    rw [uniq e1 he1 he1n, hcur] at hcls1
    by_cases hlen : e.2.length = 1
    · rw [if_pos hlen] at hcls1
      simp at hcls1
    · rw [if_neg hlen] at hcls1
      by_cases hcp : 50 < |changePercentVal c.amount (analyze_events e.2).typical_amount|
      · rw [if_pos hcp] at hcls1
        simp at hcls1
      · exact ⟨hlen, hcp⟩
  · rintro ⟨hlen, hcp⟩
    refine (mem_normalNumbers_iff now cur hist e.1).mpr
      ⟨e, he, currentDonorData c (analyze_events e.2), ?_, ?_⟩
    · rw [hcur, if_neg hlen, if_neg hcp]
      rfl
    · exact dictOf_number cur e.1 c hd

/-- Evaluation: two monthly events of 100 analyze to confidence `"Low"`
(consistency is 1 but only 2 gifts), frequency overridden to
`"Variable"`. -/
theorem analyze_two_events_eval :
    analyze_events [evJan, evFeb] = ⟨"Variable", "Low", 100, 1⟩ := by
  norm_num [analyze_events, sortEvents, List.insertionSort, List.orderedInsert,
    dateLe, Period.le, intervalsOf, monthsBetween, modeFirst, mostCommonFirst,
    frequencyLabelOf, evJan, evFeb]

/-- Evaluation: donor `"7"` with that two-event history and an unchanged
current gift is classified Normal. -/
theorem classify_entry_seven_eval :
    classifyHistoryEntry ⟨2025, 8⟩ [curRec7] ("7", [evJan, evFeb]) =
      .toNormal ⟨curRec7, "Variable", "Low", 100, 0, 0⟩ := by
  norm_num [classifyHistoryEntry, analyze_two_events_eval, dictOf, changePercentVal,
    curRec7]

/-- C2 as stated is false: donor `"7"`'s analyzed confidence is `"Low"`,
so the claim demands New, yet the classifier puts the donor in Normal
(`len(history) == 2 ≠ 1` and the change percent is 0). -/
theorem classify_new_rule_counterexample :
    (analyze_events [evJan, evFeb]).confidence = "Low" ∧
    newNumbers (classify_donors_smart ⟨2025, 8⟩ [curRec7] [("7", [evJan, evFeb])]) = [] ∧
    normalNumbers (classify_donors_smart ⟨2025, 8⟩ [curRec7] [("7", [evJan, evFeb])]) =
      ["7"] := by
  have hn : curRec7.donor_number = "7" := rfl
  refine ⟨by rw [analyze_two_events_eval], ?_, ?_⟩ <;>
    simp [classify_donors_smart, newNumbers, normalNumbers, classify_entry_seven_eval,
      lookupEvents, hn]

/-- Concrete instantiation of `classify_current_branch_rule` at donor
`"7"`: membership in Normal is equivalent to the two-sided branch
condition. -/
theorem classify_current_branch_rule_witness :
    ([("7", [evJan, evFeb])].map Prod.fst).Nodup ∧
    dictOf [curRec7] "7" = some curRec7 ∧
    ("7" ∈ normalNumbers (classify_donors_smart ⟨2025, 8⟩ [curRec7] [("7", [evJan, evFeb])]) ↔
      (¬ ([evJan, evFeb] : List GivingEvent).length = 1 ∧
        ¬ 50 < |changePercentVal curRec7.amount
          (analyze_events [evJan, evFeb]).typical_amount|)) := by
  have h := classify_current_branch_rule ⟨2025, 8⟩ [curRec7] [("7", [evJan, evFeb])]
    (by decide) ("7", [evJan, evFeb]) (by decide) curRec7 (by decide)
  exact ⟨by decide, by decide, h.2.2⟩

/-! ## C3: what the Missed record carries -/

/-- C3 (amended): every Missed record carries the name, city and state of
the donor's *earliest* event (`history[0]` of the list just sorted
ascending by period in place by the analyzer), together with the typical
amount as the expected amount — not the most recent event's data. -/
theorem missed_carries_earliest_event (now : Period) (cur : List DonorRecord)
    (hist : History) :
    ∀ m ∈ (classify_donors_smart now cur hist).2.2.1,
      ∃ evs, (m.donor_number, evs) ∈ hist ∧ evs ≠ [] ∧
        m.name = (sortEvents evs).headI.name ∧
        m.city = (sortEvents evs).headI.city ∧
        m.state = (sortEvents evs).headI.state ∧
        m.expected_amount = (analyze_events evs).typical_amount := by
  intro m hm
  unfold classify_donors_smart at hm
  simp only [List.mem_filterMap] at hm
  obtain ⟨e, he, hme⟩ := hm
  rw [extractMissed_eq_some] at hme
  obtain ⟨hm_eq, hfreq⟩ := chE_missed_inv now cur e m hme
  have hnum : m.donor_number = e.1 := by rw [hm_eq]
  refine ⟨e.2, ?_, ?_, ?_, ?_, ?_, ?_⟩
  · rw [hnum]
    exact he
  · intro hnil
    exact hfreq (by rw [hnil]; rfl)
  · rw [hm_eq]
  · rw [hm_eq]
  · rw [hm_eq]
  · rw [hm_eq]

/-- Evaluation: three monthly gifts of 100 analyze to Monthly/Medium. -/
theorem analyze_three_events_eval :
    analyze_events [evMar, evJan, evFeb] = ⟨"Monthly", "Medium", 100, 1⟩ := by
  norm_num +decide [analyze_events, sortEvents, List.insertionSort, List.orderedInsert,
    dateLe, Period.le, intervalsOf, monthsBetween, modeFirst, mostCommonFirst,
    frequencyLabelOf, evJan, evFeb, evMar]

/-- Evaluation: donor `"7"` did not give in 2025-08 and is 5 months past a
1-month average interval, so the entry is classified Missed — built from
the *earliest* event (`EARLY NAME`, `OLDCITY`, `OS`). -/
theorem classify_entry_missed_eval :
    classifyHistoryEntry ⟨2025, 8⟩ [] ("7", [evMar, evJan, evFeb]) =
      .toMissed ⟨"7", "EARLY NAME", "OLDCITY", "OS", "Monthly", "Medium", 100, 100⟩ := by
  have hA := analyze_three_events_eval
  simp only [evJan, evFeb, evMar] at hA ⊢
  norm_num +decide [classifyHistoryEntry, hA, dictOf, maxDate,
    monthsBetween, sortEvents, List.insertionSort, List.orderedInsert, dateLe,
    Period.le]

/-- C3 as stated is false: the donor's most recent event is `evMar` with
name `LATE NAME`, but the Missed record carries `EARLY NAME`, the data of
the oldest event. -/
theorem missed_name_counterexample :
    (classify_donors_smart ⟨2025, 8⟩ [] [("7", [evMar, evJan, evFeb])]).2.2.1 =
      [⟨"7", "EARLY NAME", "OLDCITY", "OS", "Monthly", "Medium", 100, 100⟩] ∧
    (sortEvents [evMar, evJan, evFeb]).getLast? = some evMar ∧
    evMar.name = "LATE NAME" ∧ ("EARLY NAME" : String) ≠ "LATE NAME" := by
  refine ⟨?_, by decide, by decide, by decide⟩
  simp [classify_donors_smart, classify_entry_missed_eval]

/-- Concrete instantiation of `missed_carries_earliest_event` at the
three-event history. -/
theorem missed_carries_earliest_event_witness :
    ∃ m, m ∈ (classify_donors_smart ⟨2025, 8⟩ [] [("7", [evMar, evJan, evFeb])]).2.2.1 ∧
      ∃ evs, (m.donor_number, evs) ∈ [("7", [evMar, evJan, evFeb])] ∧ evs ≠ [] ∧
        m.name = (sortEvents evs).headI.name ∧
        m.city = (sortEvents evs).headI.city ∧
        m.state = (sortEvents evs).headI.state ∧
        m.expected_amount = (analyze_events evs).typical_amount := by
  have hmem : (⟨"7", "EARLY NAME", "OLDCITY", "OS", "Monthly", "Medium", 100, 100⟩ :
      MissedDonor) ∈
      (classify_donors_smart ⟨2025, 8⟩ [] [("7", [evMar, evJan, evFeb])]).2.2.1 := by
    simp [classify_donors_smart, classify_entry_missed_eval]
  exact ⟨_, hmem, missed_carries_earliest_event ⟨2025, 8⟩ [] _ _ hmem⟩
